import Mathlib

/-!
# Verification of htmlutil's HTML scanning / escaping core

A shallow embedding of the `checker` and `escaper` packages of the
`Dancapistan/htmlutil` repository.

* Go strings are byte sequences; the named-reference scanner and the escapers
  index raw bytes, so text values are modelled as `List Nat` (each entry a
  byte).  The CSS3 identifier validator ranges over runes (`for i, char :=
  range val`), so it is modelled over `List Char` with the byte position `i`
  advanced by the UTF-8 width of each code point.
* The reference-name table (`IsCharacterReferenceName`, backed by the map
  `characterReferenceNames`) is not part of the included sources; following
  the design notes it is injected into the scanning/escaping logic as a
  predicate argument `isRef`, and a small table modelled from the spec is
  used for concrete instances.
* The `Next`-driven loops of `HasAmbiguousAmpersand` and
  `escapeAmbiguousAmpersandsBuffer` advance the cursor strictly at each step,
  so they are embedded with an explicit fuel argument instantiated at
  `length + 1`, which is proved sufficient.
-/

namespace Htmlutil

/-! ## Byte-level text values -/

/-- `'&'`, the ampersand byte (`UnicodeAmpersand` in the source). -/
def ampByte : Nat := 38

/-- `';'`, the semicolon byte (`UnicodeSemicolon` in the source). -/
def semiByte : Nat := 59

/-- `'"'`, the double-quote byte (`UnicodeQuoteMark` in the source). -/
def quotByte : Nat := 34

/-- Bytes of an ASCII string literal (all strings used here are ASCII, where
each code point is a single byte). -/
def str2bytes (s : String) : List Nat := s.data.map Char.toNat

/-- `htmlAmp = "&amp;"` from the escaper package. -/
def ampEntity : List Nat := str2bytes "&amp;"

/-- `htmlQuot = "&#34;"` from the escaper package. -/
def quotEntity : List Nat := str2bytes "&#34;"

/-- The alphanumeric-byte test of `NamedReferenceScanner.Next`:
`isLower || isUpper || isNumber`. -/
def isAlnumByte (c : Nat) : Bool :=
  (97 ≤ c && c ≤ 122) || (65 ≤ c && c ≤ 90) || (48 ≤ c && c ≤ 57)

/-- Go slice `val[a:b]`. -/
def sliceN (v : List Nat) (a b : Nat) : List Nat := (v.take b).drop a

/-! ## The named-reference scanner (`NamedReferenceScanner.Next`)

`innerScanL` is the inner loop of `Next` (`for j := i + 1; ...`), scanning the
suffix after an ampersand: alphanumeric bytes until a semicolon.  `outerScanL`
is the outer loop (`for i := first; ...`), working on the suffix of the value
starting at the current search position; it returns the relative indices of
the ampersand and of its terminating semicolon. -/

/-- Inner loop of `Next`: position of the terminating `;` of the candidate
name starting here, or `none` if a non-alphanumeric, non-`;` byte (or the end
of input) is hit first. -/
def innerScanL : List Nat → Option Nat
  | [] => none
  | c :: rest =>
    if c = semiByte then some 0
    else if isAlnumByte c then (innerScanL rest).map (· + 1)
    else none

/-- Outer loop of `Next`: relative indices `(ampIndex, semiIndex)` of the
next candidate in the given suffix.  An `&` immediately followed by `;` is
skipped; a failed candidate resumes the search one byte after its `&`. -/
def outerScanL : List Nat → Option (Nat × Nat)
  | [] => none
  | c :: rest =>
    if c = ampByte then
      if rest.head? = some semiByte then
        (outerScanL rest).map (fun p => (p.1 + 1, p.2 + 1))
      else
        match innerScanL rest with
        | some k => some (0, k + 1)
        | none => (outerScanL rest).map (fun p => (p.1 + 1, p.2 + 1))
    else (outerScanL rest).map (fun p => (p.1 + 1, p.2 + 1))

/-- Scan of `v` starting at absolute position `first` (the body of `Next`
with `first = LastIndex + 1`); returns absolute `(ampIndex, semiIndex)`. -/
def outerScan (v : List Nat) (first : Nat) : Option (Nat × Nat) :=
  (outerScanL (v.drop first)).map (fun p => (first + p.1, first + p.2))

/-- `NamedReferenceScanner` from the checker package: a string value plus the
resumable cursor `LastIndex` (`-1` means "not yet started"). -/
structure NamedReferenceScanner where
  Value : List Nat
  LastIndex : Int
deriving DecidableEq

/-- `NamedReferenceScanner.Next`: the next candidate named reference
(`(name, ampIndex)`, name excluding `&` and `;`) together with the updated
scanner state; `("", -1)` with `LastIndex = len(Value)` when exhausted. -/
def NamedReferenceScanner.Next (s : NamedReferenceScanner) :
    (List Nat × Int) × NamedReferenceScanner :=
  let first : Nat := (s.LastIndex + 1).toNat
  match outerScan s.Value first with
  | some (i, j) => ((sliceN s.Value (i + 1) j, (i : Int)), ⟨s.Value, (j : Int)⟩)
  | none => (([], -1), ⟨s.Value, (s.Value.length : Int)⟩)

/-- `NamedReferenceScanner.Reset`: rewind the cursor. -/
def NamedReferenceScanner.Reset (s : NamedReferenceScanner) : NamedReferenceScanner :=
  ⟨s.Value, -1⟩

/-! ## The `Next`-driven loops (fuelled) -/

/-- All matches `(name, ampIndex, semiIndex)` produced by repeatedly calling
`Next` from search position `first`.  The fuel only bounds the number of
iterations; `length + 1` is proved sufficient. -/
def scanAllF (v : List Nat) : Nat → Nat → List (List Nat × Nat × Nat)
  | _, 0 => []
  | first, fuel + 1 =>
    match outerScan v first with
    | none => []
    | some (i, j) => (sliceN v (i + 1) j, i, j) :: scanAllF v (j + 1) fuel

/-- The loop of `HasAmbiguousAmpersand`: drive the scanner, return `true` at
the first match whose name is not a reference name. -/
def hasLoopF (isRef : List Nat → Bool) (v : List Nat) : Nat → Nat → Bool
  | _, 0 => false
  | first, fuel + 1 =>
    match outerScan v first with
    | none => false
    | some (i, j) =>
      if isRef (sliceN v (i + 1) j) then hasLoopF isRef v (j + 1) fuel else true

/-- `HasAmbiguousAmpersand` from the checker package, parameterized by the
reference-name table predicate. -/
def HasAmbiguousAmpersand (isRef : List Nat → Bool) (v : List Nat) : Bool :=
  hasLoopF isRef v 0 (v.length + 1)

/-- The first loop of `escapeAmbiguousAmpersandsBuffer`: count the ambiguous
ampersands. -/
def countAmbiguousF (isRef : List Nat → Bool) (v : List Nat) : Nat → Nat → Nat
  | _, 0 => 0
  | first, fuel + 1 =>
    match outerScan v first with
    | none => 0
    | some (i, j) =>
      (if isRef (sliceN v (i + 1) j) then 0 else 1) + countAmbiguousF isRef v (j + 1) fuel

/-- The second loop of `escapeAmbiguousAmpersandsBuffer`: copy the unaffected
spans from `src` on and substitute `&amp;` for the `&` of each ambiguous
ampersand. -/
def escapeLoopF (isRef : List Nat → Bool) (v : List Nat) : Nat → Nat → Nat → List Nat
  | src, _, 0 => v.drop src
  | src, first, fuel + 1 =>
    match outerScan v first with
    | none => v.drop src
    | some (i, j) =>
      if isRef (sliceN v (i + 1) j) then escapeLoopF isRef v src (j + 1) fuel
      else sliceN v src i ++ ampEntity ++ escapeLoopF isRef v (i + 1) (j + 1) fuel

/-- `escapeAmbiguousAmpersandsBuffer`: `none` models the `nil` result (no
ambiguous ampersands), `some b` the escaped buffer. -/
def escapeAmbiguousAmpersandsBuffer (isRef : List Nat → Bool) (v : List Nat) :
    Option (List Nat) :=
  if countAmbiguousF isRef v 0 (v.length + 1) = 0 then none
  else some (escapeLoopF isRef v 0 0 (v.length + 1))

/-- Index of the first occurrence of byte `b` in `v`, `-1` when absent
(`strings.IndexRune` for an ASCII rune). -/
def idxOfByte (v : List Nat) (b : Nat) : Int :=
  match v.findIdx? (fun c => c == b) with
  | some i => (i : Int)
  | none => -1

/-- `EscapeAmbiguousAmpersands` from the escaper package. -/
def EscapeAmbiguousAmpersands (isRef : List Nat → Bool) (v : List Nat) : List Nat :=
  if v.length < 3 then v
  else
    match v.findIdx? (fun c => c == ampByte) with
    | none => v
    | some ampIdx =>
      if v.length - 2 ≤ ampIdx then v
      else
        match escapeAmbiguousAmpersandsBuffer isRef v with
        | some b => b
        | none => v

/-- `strings.Replace`/`bytes.Replace` with a single-byte pattern: every
occurrence of `old` replaced by the byte sequence `new`. -/
def replaceByte (v : List Nat) (old : Nat) (new : List Nat) : List Nat :=
  v.flatMap fun c => if c = old then new else [c]

/-- `EscapeAttributeValueDoubleQuoted` from the escaper package. -/
def EscapeAttributeValueDoubleQuoted (isRef : List Nat → Bool) (val : List Nat) :
    List Nat :=
  let idxAmp := idxOfByte val ampByte
  let idxQuo := idxOfByte val quotByte
  if idxAmp = -1 ∧ idxQuo = -1 then val
  else
    let idxSemi := idxOfByte val semiByte
    let b : Option (List Nat) :=
      if ¬idxAmp = -1 ∧ idxAmp < idxSemi then escapeAmbiguousAmpersandsBuffer isRef val
      else none
    if ¬idxQuo = -1 then
      match b with
      | none => replaceByte val quotByte quotEntity
      | some bb => replaceByte bb quotByte quotEntity
    else
      match b with
      | none => val
      | some bb => bb

/-! ## Derived forms used to state the escaping claims -/

/-- The span structure of the escape loop made explicit: copy `v[src:i]`,
emit `&amp;`, continue after each ambiguous ampersand index, and copy the
final span `v[src:]`. -/
def spliceFrom (v : List Nat) : Nat → List Nat → List Nat
  | src, [] => v.drop src
  | src, i :: rest => sliceN v src i ++ ampEntity ++ spliceFrom v (i + 1) rest

/-- The ampersand indices of the ambiguous matches the scan of `v` yields. -/
def ambigIndices (isRef : List Nat → Bool) (v : List Nat) : List Nat :=
  ((scanAllF v 0 (v.length + 1)).filter (fun m => !isRef m.1)).map (fun m => m.2.1)

/-- Character-by-character statement of the spec's description of `escape`:
at each ambiguous-ampersand position emit `&amp;`, elsewhere copy the byte
verbatim (`pos` is the absolute position of the head of the remaining list). -/
def specReplaceGo (idxs : List Nat) : Nat → List Nat → List Nat
  | _, [] => []
  | pos, c :: rest =>
    (if pos ∈ idxs then ampEntity else [c]) ++ specReplaceGo idxs (pos + 1) rest

/-- The spec's description of `escape(text)`: a copy of the text in which,
for each ambiguous ampersand, only the leading `&` byte is replaced by
`&amp;`, all other bytes verbatim. -/
def specReplaceAmbiguous (v idxs : List Nat) : List Nat :=
  specReplaceGo idxs 0 v

/-! ## The reference-name table -/

/-- Modelled from the spec: the Reference Name Table backing
`IsCharacterReferenceName` (the map `characterReferenceNames`) is defined in a
source file not included here; per the spec it is "a static set of ~2000+
case-sensitive names drawn from the HTML5 named-character-reference list".
This is a small representative fragment containing the names the spec and the
included tests mention. -/
def characterReferenceNames : List (List Nat) :=
  [str2bytes "amp", str2bytes "AMP", str2bytes "And", str2bytes "abreve",
   str2bytes "ZeroWidthSpace", str2bytes "lt", str2bytes "gt", str2bytes "nbsp",
   str2bytes "quot", str2bytes "CounterClockwiseContourIntegral"]

/-- Modelled from the spec: `IsCharacterReferenceName`, case-sensitive exact
membership in the Reference Name Table. -/
def IsCharacterReferenceName (name : List Nat) : Bool :=
  characterReferenceNames.contains name

/-! ## Candidate named references

The specification-level notion used to state the scanner's contract: a
candidate occurrence `&name;` with a non-empty, all-alphanumeric `name`. -/

/-- `candidate v i j`: `v[i] = '&'`, `v[j] = ';'`, the name `v[i+1:j]` is
non-empty and every byte of it is ASCII alphanumeric. -/
def candidate (v : List Nat) (i j : Nat) : Prop :=
  v[i]? = some ampByte ∧ i + 1 < j ∧ v[j]? = some semiByte ∧
    ∀ k < j, i < k → (v[k]?).any isAlnumByte = true

instance (v : List Nat) (i j : Nat) : Decidable (candidate v i j) := by
  unfold candidate; infer_instance

/-! ## The CSS3 identifier validator -/

/-- U+00A0, the least code point accepted unconditionally. -/
def nbspChar : Char := Char.ofNat 160

/-- The per-call lexer state of `IsValidCss3Identifier`: the first code
point, the byte position `i`, and the escape flags. -/
structure CssSt where
  first : Char
  i : Nat
  wasSlash : Bool
  inEscape : Bool
  hexCount : Nat
deriving DecidableEq

/-- One iteration of the `for i, char := range val` loop body of
`IsValidCss3Identifier`: `none` models `return false`, `some s'` the state
after `continue`. -/
def css3Step (s : CssSt) (c : Char) : Option CssSt :=
  let first := if s.i = 0 then c else s.first
  if s.i = 0 ∧ '0' ≤ c ∧ c ≤ '9' then none
  else if s.i = 1 ∧ first = '-' ∧ (c = '-' ∨ ('0' ≤ c ∧ c ≤ '9')) then none
  else
    let inEscape := if s.hexCount > 6 then false else s.inEscape
    if nbspChar ≤ c then
      some ⟨first, s.i + c.utf8Size, false, false, s.hexCount⟩
    else if c = '-' ∨ c = '_' then
      some ⟨first, s.i + c.utf8Size, false, false, s.hexCount⟩
    else if 'a' ≤ c ∧ c ≤ 'z' then
      if 'f' < c then some ⟨first, s.i + c.utf8Size, false, false, s.hexCount⟩
      else some ⟨first, s.i + c.utf8Size, false, inEscape, s.hexCount + 1⟩
    else if 'A' ≤ c ∧ c ≤ 'Z' then
      if 'F' < c then some ⟨first, s.i + c.utf8Size, false, false, s.hexCount⟩
      else some ⟨first, s.i + c.utf8Size, false, inEscape, s.hexCount + 1⟩
    else if '0' ≤ c ∧ c ≤ '9' then
      some ⟨first, s.i + c.utf8Size, false, inEscape, s.hexCount + 1⟩
    else if c = '\\' then
      some ⟨first, s.i + c.utf8Size, true, true, 0⟩
    else if inEscape ∧ (c = ' ' ∨ c = '\t' ∨ c = '\n' ∨ c = '\r' ∨ c = '\x0c') then
      some ⟨first, s.i + c.utf8Size, false, false, s.hexCount⟩
    else if s.wasSlash then
      some ⟨first, s.i + c.utf8Size, false, false, s.hexCount⟩
    else none

/-- The full loop of `IsValidCss3Identifier`: `false` as soon as a step
rejects, `true` when the input is exhausted. -/
def css3Loop (s : CssSt) : List Char → Bool
  | [] => true
  | c :: rest =>
    match css3Step s c with
    | none => false
    | some s' => css3Loop s' rest

/-- The initial lexer state (`var first, second rune; var wasSlash, inEscape
bool; var hexCount int`). -/
def css3Init : CssSt := ⟨Char.ofNat 0, 0, false, false, 0⟩

/-- `IsValidCss3Identifier` from the checker package, over the sequence of
code points of the value. -/
def IsValidCss3Identifier (val : List Char) : Bool :=
  match val with
  | [] => false
  | _ => css3Loop css3Init val

/-- The code points the validator accepts as plain identifier text: `≥ U+00A0`,
`-`, `_`, or ASCII alphanumeric. -/
def cssPlainChar (c : Char) : Prop :=
  nbspChar ≤ c ∨ c = '-' ∨ c = '_' ∨ ('a' ≤ c ∧ c ≤ 'z') ∨ ('A' ≤ c ∧ c ≤ 'Z') ∨
    ('0' ≤ c ∧ c ≤ '9')

instance (c : Char) : Decidable (cssPlainChar c) := by
  unfold cssPlainChar; infer_instance

/-! ## Lemmas: byte classes -/

theorem isAlnumByte_ne_semi {c : Nat} (h : isAlnumByte c = true) : c ≠ semiByte := by
  simp only [isAlnumByte, Bool.or_eq_true, Bool.and_eq_true, decide_eq_true_eq] at h
  simp only [semiByte]; omega

theorem isAlnumByte_ne_amp {c : Nat} (h : isAlnumByte c = true) : c ≠ ampByte := by
  simp only [isAlnumByte, Bool.or_eq_true, Bool.and_eq_true, decide_eq_true_eq] at h
  simp only [ampByte]; omega

/-! ## Lemmas: the inner scanning loop -/

theorem innerScanL_sound : ∀ {l : List Nat} {k : Nat}, innerScanL l = some k →
    l[k]? = some semiByte ∧ ∀ m, m < k → (l[m]?).any isAlnumByte = true := by
  intro l
  induction l with
  | nil => intro k h; simp [innerScanL] at h
  | cons c rest ih =>
    intro k h
    by_cases hc : c = semiByte
    · simp only [innerScanL, if_pos hc, Option.some.injEq] at h
      subst h
      refine ⟨by simp [hc], ?_⟩
      intro m hm; omega
    · by_cases ha : isAlnumByte c = true
      · simp only [innerScanL, if_neg hc, if_pos ha, Option.map_eq_some'] at h
        obtain ⟨k', hk', rfl⟩ := h
        obtain ⟨h1, h2⟩ := ih hk'
        refine ⟨by simpa using h1, ?_⟩
        intro m hm
        cases m with
        | zero => simpa using ha
        | succ m' => simpa using h2 m' (by omega)
      · simp [innerScanL, if_neg hc, ha] at h

theorem innerScanL_complete : ∀ {l : List Nat} {k : Nat},
    l[k]? = some semiByte → (∀ m, m < k → (l[m]?).any isAlnumByte = true) →
    innerScanL l = some k := by
  intro l
  induction l with
  | nil => intro k h _; simp at h
  | cons c rest ih =>
    intro k hsemi halnum
    cases k with
    | zero =>
      simp only [List.getElem?_cons_zero, Option.some.injEq] at hsemi
      simp [innerScanL, hsemi]
    | succ k' =>
      have h0 : ((c :: rest)[0]?).any isAlnumByte = true := halnum 0 (Nat.succ_pos _)
      simp only [List.getElem?_cons_zero, Option.any_some] at h0
      have hc : ¬ c = semiByte := isAlnumByte_ne_semi h0
      have hrest : innerScanL rest = some k' := by
        refine ih (by simpa using hsemi) ?_
        intro m hm
        simpa using halnum (m + 1) (by omega)
      simp [innerScanL, if_neg hc, h0, hrest]

/-! ## Lemmas: candidates -/

theorem candidate_length {v : List Nat} {i j : Nat} (h : candidate v i j) :
    i + 1 < j ∧ j < v.length := by
  obtain ⟨-, h2, h3, -⟩ := h
  refine ⟨h2, ?_⟩
  rcases List.getElem?_eq_some_iff.mp h3 with ⟨hj, -⟩
  exact hj

theorem candidate_cons {c : Nat} {l : List Nat} {p q : Nat} :
    candidate (c :: l) (p + 1) (q + 1) ↔ candidate l p q := by
  unfold candidate
  simp only [List.getElem?_cons_succ]
  constructor
  · rintro ⟨h1, h2, h3, h4⟩
    refine ⟨h1, by omega, h3, ?_⟩
    intro k hk hpk
    simpa using h4 (k + 1) (by omega) (by omega)
  · rintro ⟨h1, h2, h3, h4⟩
    refine ⟨h1, by omega, h3, ?_⟩
    intro k hk hpk
    cases k with
    | zero => omega
    | succ k' => simpa using h4 k' (by omega) (by omega)

theorem not_candidate_zero_of_ne_amp {c : Nat} {l : List Nat} {q : Nat}
    (hc : ¬ c = ampByte) : ¬ candidate (c :: l) 0 q := by
  rintro ⟨h1, -, -, -⟩
  simp only [List.getElem?_cons_zero, Option.some.injEq] at h1
  exact hc h1

theorem not_candidate_zero_of_skip {c : Nat} {l : List Nat} {q : Nat}
    (hs : l.head? = some semiByte) : ¬ candidate (c :: l) 0 q := by
  rintro ⟨-, h2, -, h4⟩
  have h1 : ((c :: l)[1]?).any isAlnumByte = true := h4 1 (by omega) (by omega)
  rw [List.head?_eq_getElem?] at hs
  simp only [List.getElem?_cons_succ, hs, Option.any_some] at h1
  exact isAlnumByte_ne_semi h1 rfl

theorem not_candidate_zero_of_fail {c : Nat} {l : List Nat} {q : Nat}
    (hf : innerScanL l = none) : ¬ candidate (c :: l) 0 q := by
  rintro ⟨-, h2, h3, h4⟩
  obtain ⟨q', rfl⟩ : ∃ q', q = q' + 1 := ⟨q - 1, by omega⟩
  rw [List.getElem?_cons_succ] at h3
  have : innerScanL l = some q' := by
    refine innerScanL_complete h3 ?_
    intro m hm
    simpa using h4 (m + 1) (by omega) (by omega)
  rw [hf] at this
  exact Option.noConfusion this

theorem candidate_end_unique {v : List Nat} {i j j' : Nat}
    (h : candidate v i j) (h' : candidate v i j') : j = j' := by
  rcases Nat.lt_trichotomy j j' with hlt | heq | hgt
  · exfalso
    obtain ⟨-, h2, h3, -⟩ := h
    obtain ⟨-, -, -, h4'⟩ := h'
    have := h4' j hlt (by omega)
    rw [h3] at this
    simp only [Option.any_some] at this
    exact isAlnumByte_ne_semi this rfl
  · exact heq
  · exfalso
    obtain ⟨-, -, -, h4⟩ := h
    obtain ⟨-, h2', h3', -⟩ := h'
    have := h4 j' hgt (by omega)
    rw [h3'] at this
    simp only [Option.any_some] at this
    exact isAlnumByte_ne_semi this rfl

theorem no_candidate_inside {v : List Nat} {i j p q : Nat} (h : candidate v i j)
    (hp1 : i < p) (hp2 : p ≤ j) : ¬ candidate v p q := by
  rintro ⟨h1', -, -, -⟩
  obtain ⟨-, -, h3, h4⟩ := h
  rcases Nat.lt_or_ge p j with hpj | hpj
  · have := h4 p hpj hp1
    rw [h1'] at this
    simp only [Option.any_some] at this
    exact isAlnumByte_ne_amp this rfl
  · have hpj' : p = j := by omega
    subst hpj'
    rw [h1'] at h3
    simp only [Option.some.injEq] at h3
    exact absurd h3 (by decide)

theorem candidate_drop {v : List Nat} {f p q : Nat} :
    candidate (v.drop f) p q ↔ candidate v (f + p) (f + q) := by
  unfold candidate
  simp only [List.getElem?_drop]
  constructor
  · rintro ⟨h1, h2, h3, h4⟩
    refine ⟨h1, by omega, h3, ?_⟩
    intro k hk hpk
    have : v[f + (k - f)]? = v[k]? := by congr 1; omega
    rw [← this]
    exact h4 (k - f) (by omega) (by omega)
  · rintro ⟨h1, h2, h3, h4⟩
    refine ⟨h1, by omega, h3, ?_⟩
    intro k hk hpk
    exact h4 (f + k) (by omega) (by omega)

/-! ## Lemmas: the outer scanning loop -/

theorem outerScanL_shift_cases {rest : List Nat} {i j : Nat}
    (h : (outerScanL rest).map (fun p => (p.1 + 1, p.2 + 1)) = some (i, j)) :
    ∃ p q, outerScanL rest = some (p, q) ∧ i = p + 1 ∧ j = q + 1 := by
  rw [Option.map_eq_some'] at h
  obtain ⟨⟨p, q⟩, hpq, heq⟩ := h
  exact ⟨p, q, hpq, by simpa using ⟨(Prod.mk.injEq _ _ _ _ ▸ heq).1.symm,
    (Prod.mk.injEq _ _ _ _ ▸ heq).2.symm⟩⟩

theorem outerScanL_sound : ∀ {l : List Nat} {i j : Nat}, outerScanL l = some (i, j) →
    candidate l i j := by
  intro l
  induction l with
  | nil => intro i j h; simp [outerScanL] at h
  | cons c rest ih =>
    intro i j h
    by_cases hc : c = ampByte
    · by_cases hs : rest.head? = some semiByte
      · rw [outerScanL, if_pos hc, if_pos hs] at h
        obtain ⟨p, q, hpq, rfl, rfl⟩ := outerScanL_shift_cases h
        exact candidate_cons.mpr (ih hpq)
      · rw [outerScanL, if_pos hc, if_neg hs] at h
        rcases hinner : innerScanL rest with _ | k
        · rw [hinner] at h
          obtain ⟨p, q, hpq, rfl, rfl⟩ := outerScanL_shift_cases h
          exact candidate_cons.mpr (ih hpq)
        · rw [hinner] at h
          simp only [Option.some.injEq, Prod.mk.injEq] at h
          obtain ⟨rfl, rfl⟩ := h
          obtain ⟨h1, h2⟩ := innerScanL_sound hinner
          have hk0 : 0 < k := by
            rcases Nat.eq_zero_or_pos k with rfl | hk
            · exact absurd (List.head?_eq_getElem? rest ▸ h1) hs
            · exact hk
          refine ⟨by simp [hc], by omega, by simpa using h1, ?_⟩
          intro m hm h0m
          obtain ⟨m', rfl⟩ : ∃ m', m = m' + 1 := ⟨m - 1, by omega⟩
          simpa using h2 m' (by omega)
    · rw [outerScanL, if_neg hc] at h
      obtain ⟨p, q, hpq, rfl, rfl⟩ := outerScanL_shift_cases h
      exact candidate_cons.mpr (ih hpq)

theorem outerScanL_min : ∀ {l : List Nat} {i j : Nat}, outerScanL l = some (i, j) →
    ∀ p q, p < i → ¬ candidate l p q := by
  intro l
  induction l with
  | nil => intro i j h; simp [outerScanL] at h
  | cons c rest ih =>
    intro i j h p q hpi
    have step : ∀ {p' q' : Nat}, (∃ i' j', outerScanL rest = some (i', j') ∧
        i = i' + 1 ∧ j = j' + 1) → (¬ candidate (c :: rest) 0 q') →
        p' < i → ¬ candidate (c :: rest) p' q' := by
      rintro p' q' ⟨i', j', hpq, rfl, rfl⟩ h0 hp'
      cases p' with
      | zero => exact h0
      | succ p'' =>
        cases q' with
        | zero => rintro ⟨-, h2, -, -⟩; omega
        | succ q'' =>
          intro hcand
          exact ih hpq p'' q'' (by omega) (candidate_cons.mp hcand)
    by_cases hc : c = ampByte
    · by_cases hs : rest.head? = some semiByte
      · rw [outerScanL, if_pos hc, if_pos hs] at h
        obtain ⟨p₁, q₁, hpq, hi, hj⟩ := outerScanL_shift_cases h
        exact step ⟨p₁, q₁, hpq, hi, hj⟩ (not_candidate_zero_of_skip hs) hpi
      · rw [outerScanL, if_pos hc, if_neg hs] at h
        rcases hinner : innerScanL rest with _ | k
        · rw [hinner] at h
          obtain ⟨p₁, q₁, hpq, hi, hj⟩ := outerScanL_shift_cases h
          exact step ⟨p₁, q₁, hpq, hi, hj⟩ (not_candidate_zero_of_fail hinner) hpi
        · rw [hinner] at h
          simp only [Option.some.injEq, Prod.mk.injEq] at h
          omega
    · rw [outerScanL, if_neg hc] at h
      obtain ⟨p₁, q₁, hpq, hi, hj⟩ := outerScanL_shift_cases h
      exact step ⟨p₁, q₁, hpq, hi, hj⟩ (not_candidate_zero_of_ne_amp hc) hpi

theorem outerScanL_none : ∀ {l : List Nat}, outerScanL l = none →
    ∀ p q, ¬ candidate l p q := by
  intro l
  induction l with
  | nil =>
    intro _ p q
    rintro ⟨h1, -, -, -⟩
    simp at h1
  | cons c rest ih =>
    intro h p q
    have hmap : (outerScanL rest).map (fun p => (p.1 + 1, p.2 + 1)) = none →
        outerScanL rest = none := by
      intro hm
      rcases ho : outerScanL rest with _ | pq
      · rfl
      · rw [ho] at hm; simp at hm
    have step : outerScanL rest = none → (¬ candidate (c :: rest) 0 q) →
        ¬ candidate (c :: rest) p q := by
      intro hrest h0
      cases p with
      | zero => exact h0
      | succ p' =>
        cases q with
        | zero => rintro ⟨-, h2, -, -⟩; omega
        | succ q' =>
          intro hcand
          exact ih hrest p' q' (candidate_cons.mp hcand)
    by_cases hc : c = ampByte
    · by_cases hs : rest.head? = some semiByte
      · rw [outerScanL, if_pos hc, if_pos hs] at h
        exact step (hmap h) (not_candidate_zero_of_skip hs)
      · rw [outerScanL, if_pos hc, if_neg hs] at h
        rcases hinner : innerScanL rest with _ | k
        · rw [hinner] at h
          exact step (hmap h) (not_candidate_zero_of_fail hinner)
        · rw [hinner] at h; simp at h
    · rw [outerScanL, if_neg hc] at h
      exact step (hmap h) (not_candidate_zero_of_ne_amp hc)

/-! ## Lemmas: the absolute scan -/

theorem outerScan_cases {v : List Nat} {f i j : Nat} (h : outerScan v f = some (i, j)) :
    ∃ p q, outerScanL (v.drop f) = some (p, q) ∧ i = f + p ∧ j = f + q := by
  unfold outerScan at h
  rw [Option.map_eq_some'] at h
  obtain ⟨⟨p, q⟩, hpq, heq⟩ := h
  exact ⟨p, q, hpq, by simpa using ⟨(Prod.mk.injEq _ _ _ _ ▸ heq).1.symm,
    (Prod.mk.injEq _ _ _ _ ▸ heq).2.symm⟩⟩

theorem outerScan_sound {v : List Nat} {f i j : Nat} (h : outerScan v f = some (i, j)) :
    f ≤ i ∧ candidate v i j := by
  obtain ⟨p, q, hpq, rfl, rfl⟩ := outerScan_cases h
  exact ⟨by omega, candidate_drop.mp (outerScanL_sound hpq)⟩

theorem outerScan_min {v : List Nat} {f i j : Nat} (h : outerScan v f = some (i, j)) :
    ∀ p q, f ≤ p → p < i → ¬ candidate v p q := by
  obtain ⟨p₁, q₁, hpq, rfl, rfl⟩ := outerScan_cases h
  intro p q hfp hpi hcand
  have hq : f ≤ q := by
    obtain ⟨-, h2, -, -⟩ := hcand; omega
  have : candidate (v.drop f) (p - f) (q - f) := by
    rw [candidate_drop]
    have h1 : f + (p - f) = p := by omega
    have h2 : f + (q - f) = q := by omega
    rw [h1, h2]; exact hcand
  exact outerScanL_min hpq (p - f) (q - f) (by omega) this

theorem outerScan_none {v : List Nat} {f : Nat} (h : outerScan v f = none) :
    ∀ p q, f ≤ p → ¬ candidate v p q := by
  intro p q hfp hcand
  have hmap : outerScanL (v.drop f) = none := by
    unfold outerScan at h
    rcases ho : outerScanL (v.drop f) with _ | pq
    · rfl
    · rw [ho] at h; simp at h
  have hq : f ≤ q := by
    obtain ⟨-, h2, -, -⟩ := hcand; omega
  have : candidate (v.drop f) (p - f) (q - f) := by
    rw [candidate_drop]
    have h1 : f + (p - f) = p := by omega
    have h2 : f + (q - f) = q := by omega
    rw [h1, h2]; exact hcand
  exact outerScanL_none hmap (p - f) (q - f) this

theorem outerScan_exhausted {v : List Nat} {f : Nat} (h : v.length ≤ f) :
    outerScan v f = none := by
  unfold outerScan
  rw [List.drop_eq_nil_of_le h]
  rfl

/-! ## Lemmas: the fuelled drivers -/

theorem scanAllF_sound : ∀ {fuel first : Nat} {v : List Nat} {m : List Nat × Nat × Nat},
    m ∈ scanAllF v first fuel →
    first ≤ m.2.1 ∧ candidate v m.2.1 m.2.2 ∧ m.1 = sliceN v (m.2.1 + 1) m.2.2 := by
  intro fuel
  induction fuel with
  | zero => intro first v m h; simp [scanAllF] at h
  | succ f ih =>
    intro first v m h
    rcases houter : outerScan v first with _ | ⟨i, j⟩
    · simp [scanAllF, houter] at h
    · simp only [scanAllF, houter] at h
      rcases List.mem_cons.mp h with rfl | htail
      · obtain ⟨h1, h2⟩ := outerScan_sound houter
        exact ⟨h1, h2, rfl⟩
      · obtain ⟨hfi, hcand⟩ := outerScan_sound houter
        obtain ⟨hij, -⟩ := candidate_length hcand
        obtain ⟨h1, h2, h3⟩ := ih htail
        exact ⟨by omega, h2, h3⟩

theorem scanAllF_pairwise : ∀ {fuel first : Nat} {v : List Nat},
    List.Pairwise (fun a b => a.2.2 < b.2.1) (scanAllF v first fuel) := by
  intro fuel
  induction fuel with
  | zero => intro first v; simp [scanAllF]
  | succ f ih =>
    intro first v
    rcases houter : outerScan v first with _ | ⟨i, j⟩
    · simp [scanAllF, houter]
    · simp only [scanAllF, houter]
      refine List.Pairwise.cons ?_ ih
      intro b hb
      have := (scanAllF_sound hb).1
      show j < b.2.1
      omega

theorem scanAllF_congr : ∀ (fuel fuel' first : Nat) (v : List Nat),
    v.length < first + fuel → v.length < first + fuel' →
    scanAllF v first fuel = scanAllF v first fuel' := by
  intro fuel
  induction fuel with
  | zero =>
    intro fuel' first v h h'
    cases fuel' with
    | zero => rfl
    | succ f' =>
      rw [scanAllF, scanAllF, outerScan_exhausted (by omega)]
  | succ f ih =>
    intro fuel' first v h h'
    cases fuel' with
    | zero =>
      rw [scanAllF, scanAllF, outerScan_exhausted (by omega)]
    | succ f' =>
      rcases houter : outerScan v first with _ | ⟨i, j⟩
      · simp [scanAllF, houter]
      · obtain ⟨hfi, hcand⟩ := outerScan_sound houter
        obtain ⟨hij, hjlen⟩ := candidate_length hcand
        simp only [scanAllF, houter]
        rw [ih f' (j + 1) v (by omega) (by omega)]

theorem hasLoopF_eq_any : ∀ {fuel first : Nat} {isRef : List Nat → Bool} {v : List Nat},
    hasLoopF isRef v first fuel = (scanAllF v first fuel).any (fun m => !isRef m.1) := by
  intro fuel
  induction fuel with
  | zero => intro first isRef v; simp [hasLoopF, scanAllF]
  | succ f ih =>
    intro first isRef v
    rcases houter : outerScan v first with _ | ⟨i, j⟩
    · simp [hasLoopF, scanAllF, houter]
    · simp only [hasLoopF, scanAllF, houter, List.any_cons]
      by_cases href : isRef (sliceN v (i + 1) j) = true
      · simp [href, ih]
      · simp [href]

theorem countAmbiguousF_eq_countP : ∀ {fuel first : Nat} {isRef : List Nat → Bool}
    {v : List Nat}, countAmbiguousF isRef v first fuel =
      (scanAllF v first fuel).countP (fun m => !isRef m.1) := by
  intro fuel
  induction fuel with
  | zero => intro first isRef v; simp [countAmbiguousF, scanAllF]
  | succ f ih =>
    intro first isRef v
    rcases houter : outerScan v first with _ | ⟨i, j⟩
    · simp [countAmbiguousF, scanAllF, houter]
    · simp only [countAmbiguousF, scanAllF, houter, List.countP_cons]
      by_cases href : isRef (sliceN v (i + 1) j) = true
      · simp [href, ih]
      · simp [href, ih]; omega

theorem escapeLoopF_eq_spliceFrom : ∀ {fuel first src : Nat} {isRef : List Nat → Bool}
    {v : List Nat}, escapeLoopF isRef v src first fuel =
      spliceFrom v src
        (((scanAllF v first fuel).filter (fun m => !isRef m.1)).map (fun m => m.2.1)) := by
  intro fuel
  induction fuel with
  | zero => intro first src isRef v; simp [escapeLoopF, scanAllF, spliceFrom]
  | succ f ih =>
    intro first src isRef v
    rcases houter : outerScan v first with _ | ⟨i, j⟩
    · simp [escapeLoopF, scanAllF, houter, spliceFrom]
    · simp only [escapeLoopF, scanAllF, houter]
      by_cases href : isRef (sliceN v (i + 1) j) = true
      · have hf : (!isRef (sliceN v (i + 1) j)) = false := by simp [href]
        simp only [List.filter_cons, hf, Bool.false_eq_true, if_false, if_pos href]
        exact ih
      · have ht : (!isRef (sliceN v (i + 1) j)) = true := by simp [href]
        simp only [List.filter_cons, ht, if_true, List.map_cons, if_neg href]
        simp only [spliceFrom]
        rw [ih]

theorem scanAllF_eq_nil_of_no_candidate {fuel first : Nat} {v : List Nat}
    (h : ∀ i j, ¬ candidate v i j) : scanAllF v first fuel = [] := by
  cases fuel with
  | zero => rfl
  | succ f =>
    rw [scanAllF]
    rcases houter : outerScan v first with _ | ⟨i, j⟩
    · rfl
    · exact absurd (outerScan_sound houter).2 (h i j)

/-! ## Lemmas: splicing and the spec-level replacement -/

theorem sliceN_length {v : List Nat} {a b : Nat} (h1 : a ≤ b) (h2 : b ≤ v.length) :
    (sliceN v a b).length = b - a := by
  simp only [sliceN, List.length_drop, List.length_take]
  omega

theorem drop_eq_sliceN_append {v : List Nat} {src i : Nat} (h1 : src ≤ i)
    (h2 : i ≤ v.length) : v.drop src = sliceN v src i ++ v.drop i := by
  conv_lhs => rw [← List.take_append_drop i v]
  rw [List.drop_append_eq_append_drop]
  have hlen : (v.take i).length = i := by simp [List.length_take]; omega
  rw [hlen]
  have : src - i = 0 := by omega
  rw [this, List.drop_zero]
  rfl

theorem specReplaceGo_nil_idxs : ∀ (l : List Nat) (pos : Nat),
    specReplaceGo [] pos l = l := by
  intro l
  induction l with
  | nil => intro pos; rfl
  | cons c rest ih =>
    intro pos
    simp [specReplaceGo, ih]

theorem specReplaceGo_append (idxs : List Nat) : ∀ (l₁ : List Nat) (pos : Nat)
    (l₂ : List Nat), (∀ p, pos ≤ p → p < pos + l₁.length → p ∉ idxs) →
    specReplaceGo idxs pos (l₁ ++ l₂) = l₁ ++ specReplaceGo idxs (pos + l₁.length) l₂ := by
  intro l₁
  induction l₁ with
  | nil => intro pos l₂ h; simp
  | cons c rest ih =>
    intro pos l₂ h
    have hpos : pos ∉ idxs := h pos (le_refl _) (by simp only [List.length_cons]; omega)
    have hside : ∀ p, pos + 1 ≤ p → p < (pos + 1) + rest.length → p ∉ idxs := by
      intro p hp1 hp2
      exact h p (by omega) (by simp only [List.length_cons]; omega)
    rw [List.cons_append, specReplaceGo, if_neg hpos, ih (pos + 1) l₂ hside]
    have harith : pos + 1 + rest.length = pos + (c :: rest).length := by
      simp only [List.length_cons]; omega
    rw [harith]
    simp

theorem specReplaceGo_cons_of_lt (i : Nat) (rest : List Nat) : ∀ (l : List Nat)
    (pos : Nat), i < pos → specReplaceGo (i :: rest) pos l = specReplaceGo rest pos l := by
  intro l
  induction l with
  | nil => intro pos _; rfl
  | cons c tail ih =>
    intro pos hip
    have : (pos ∈ i :: rest) ↔ pos ∈ rest := by
      simp only [List.mem_cons]
      constructor
      · rintro (rfl | h)
        · omega
        · exact h
      · exact Or.inr
    rw [specReplaceGo, specReplaceGo, ih (pos + 1) (by omega)]
    by_cases hmem : pos ∈ rest
    · rw [if_pos (this.mpr hmem), if_pos hmem]
    · rw [if_neg (fun hc => hmem (this.mp hc)), if_neg hmem]

theorem spliceFrom_eq_specReplaceGo : ∀ (idxs : List Nat) (src : Nat) (v : List Nat),
    (∀ x ∈ idxs, src ≤ x ∧ x < v.length) → List.Pairwise (· < ·) idxs →
    spliceFrom v src idxs = specReplaceGo idxs src (v.drop src) := by
  intro idxs
  induction idxs with
  | nil => intro src v _ _; simp [spliceFrom, specReplaceGo_nil_idxs]
  | cons i rest ih =>
    intro src v hb hp
    obtain ⟨hsrc, hlen⟩ := hb i (List.mem_cons_self _ _)
    have hrest_lt : ∀ x ∈ rest, i < x := by
      intro x hx
      exact (List.pairwise_cons.mp hp).1 x hx
    rw [spliceFrom]
    rw [drop_eq_sliceN_append hsrc (by omega)]
    rw [specReplaceGo_append (i :: rest) (sliceN v src i) src (v.drop i) ?_]
    · rw [sliceN_length hsrc (by omega)]
      have hsi : src + (i - src) = i := by omega
      rw [hsi]
      rw [List.drop_eq_getElem_cons hlen, specReplaceGo, if_pos (List.mem_cons_self _ _)]
      rw [specReplaceGo_cons_of_lt i rest (v.drop (i + 1)) (i + 1) (by omega)]
      rw [← ih (i + 1) v ?_ (List.pairwise_cons.mp hp).2]
      · simp
      · intro x hx
        exact ⟨by have := hrest_lt x hx; omega, (hb x (List.mem_cons_of_mem _ hx)).2⟩
    · intro p hp1 hp2
      rw [sliceN_length hsrc (by omega)] at hp2
      intro hmem
      rcases List.mem_cons.mp hmem with rfl | hmem'
      · omega
      · have := hrest_lt p hmem'
        omega

theorem spliceFrom_length : ∀ (idxs : List Nat) (src : Nat) (v : List Nat),
    (∀ x ∈ idxs, src ≤ x ∧ x < v.length) → List.Pairwise (· < ·) idxs →
    (spliceFrom v src idxs).length = (v.length - src) + 4 * idxs.length := by
  intro idxs
  induction idxs with
  | nil => intro src v _ _; simp [spliceFrom]
  | cons i rest ih =>
    intro src v hb hp
    obtain ⟨hsrc, hlen⟩ := hb i (List.mem_cons_self _ _)
    have hrest_lt : ∀ x ∈ rest, i < x := by
      intro x hx
      exact (List.pairwise_cons.mp hp).1 x hx
    rw [spliceFrom]
    simp only [List.length_append]
    rw [sliceN_length hsrc (by omega)]
    rw [ih (i + 1) v ?_ (List.pairwise_cons.mp hp).2]
    · have hamp : ampEntity.length = 5 := by decide
      rw [hamp]
      simp only [List.length_cons]
      omega
    · intro x hx
      exact ⟨by have := hrest_lt x hx; omega, (hb x (List.mem_cons_of_mem _ hx)).2⟩

/-! ## Lemmas: the ambiguous-index list -/

theorem ambigIndices_bounds {isRef : List Nat → Bool} {v : List Nat} :
    ∀ x ∈ ambigIndices isRef v, 0 ≤ x ∧ x < v.length := by
  intro x hx
  unfold ambigIndices at hx
  obtain ⟨m, hm, rfl⟩ := List.mem_map.mp hx
  have hmem := (List.mem_filter.mp hm).1
  obtain ⟨-, hcand, -⟩ := scanAllF_sound hmem
  obtain ⟨h1, h2⟩ := candidate_length hcand
  exact ⟨Nat.zero_le _, by omega⟩

theorem ambigIndices_pairwise {isRef : List Nat → Bool} {v : List Nat} :
    List.Pairwise (· < ·) (ambigIndices isRef v) := by
  unfold ambigIndices
  rw [List.pairwise_map]
  refine List.Pairwise.imp_of_mem ?_ (List.Pairwise.filter _ scanAllF_pairwise)
  intro a b ha hb hR
  have hamem := (List.mem_filter.mp ha).1
  obtain ⟨-, hcand, -⟩ := scanAllF_sound hamem
  obtain ⟨h1, -⟩ := candidate_length hcand
  omega

/-! ## Lemmas: the escape wrapper -/

theorem no_candidate_of_short {v : List Nat} (h : v.length < 3) :
    ∀ i j, ¬ candidate v i j := by
  intro i j hcand
  obtain ⟨h1, h2⟩ := candidate_length hcand
  omega

theorem no_candidate_of_no_amp {v : List Nat}
    (h : v.findIdx? (fun c => c == ampByte) = none) : ∀ i j, ¬ candidate v i j := by
  intro i j hcand
  obtain ⟨h1, -, -, -⟩ := hcand
  obtain ⟨hi, hv⟩ := List.getElem?_eq_some_iff.mp h1
  have hmem : ampByte ∈ v := hv ▸ List.getElem_mem hi
  have := (List.findIdx?_eq_none_iff.mp h) ampByte hmem
  simp at this

theorem no_candidate_of_late_amp {v : List Nat} {ampIdx : Nat}
    (h : v.findIdx? (fun c => c == ampByte) = some ampIdx)
    (hlate : v.length - 2 ≤ ampIdx) : ∀ i j, ¬ candidate v i j := by
  intro i j hcand
  obtain ⟨h1, h2, h3, -⟩ := hcand
  obtain ⟨hi, hv⟩ := List.getElem?_eq_some_iff.mp h1
  obtain ⟨hidx, hfind⟩ := List.findIdx?_eq_some_iff_findIdx_eq.mp h
  have hle : List.findIdx (fun c => c == ampByte) v ≤ i := by
    by_contra hcon
    have := List.not_of_lt_findIdx (Nat.lt_of_not_le hcon)
    rw [hv] at this
    simp at this
  obtain ⟨hj, -⟩ := List.getElem?_eq_some_iff.mp h3
  omega

theorem countAmbiguousF_zero_iff {isRef : List Nat → Bool} {v : List Nat}
    {first fuel : Nat} : countAmbiguousF isRef v first fuel = 0 ↔
      (scanAllF v first fuel).filter (fun m => !isRef m.1) = [] := by
  rw [countAmbiguousF_eq_countP, List.countP_eq_length_filter, List.length_eq_zero]

theorem escapeAmbiguousAmpersands_eq_spliceFrom (isRef : List Nat → Bool)
    (v : List Nat) :
    EscapeAmbiguousAmpersands isRef v = spliceFrom v 0 (ambigIndices isRef v) := by
  have hnil : ∀ (hnc : ∀ i j, ¬ candidate v i j),
      spliceFrom v 0 (ambigIndices isRef v) = v := by
    intro hnc
    unfold ambigIndices
    rw [scanAllF_eq_nil_of_no_candidate hnc]
    simp [spliceFrom]
  unfold EscapeAmbiguousAmpersands
  by_cases hshort : v.length < 3
  · rw [if_pos hshort, hnil (no_candidate_of_short hshort)]
  · rw [if_neg hshort]
    rcases hfind : v.findIdx? (fun c => c == ampByte) with _ | ampIdx
    · exact (hnil (no_candidate_of_no_amp hfind)).symm
    · dsimp only
      by_cases hlate : v.length - 2 ≤ ampIdx
      · rw [if_pos hlate, hnil (no_candidate_of_late_amp hfind hlate)]
      · rw [if_neg hlate]
        unfold escapeAmbiguousAmpersandsBuffer
        by_cases hcount : countAmbiguousF isRef v 0 (v.length + 1) = 0
        · rw [if_pos hcount]
          dsimp only
          have hfil := countAmbiguousF_zero_iff.mp hcount
          unfold ambigIndices
          rw [hfil]
          simp [spliceFrom]
        · rw [if_neg hcount]
          dsimp only
          unfold ambigIndices
          exact escapeLoopF_eq_spliceFrom

/-! ## Lemmas: the detector -/

theorem hasLoopF_true_iff : ∀ (fuel first : Nat) (isRef : List Nat → Bool) (v : List Nat),
    v.length < first + fuel →
    (hasLoopF isRef v first fuel = true ↔
      ∃ i j, first ≤ i ∧ candidate v i j ∧ isRef (sliceN v (i + 1) j) = false) := by
  intro fuel
  induction fuel with
  | zero =>
    intro first isRef v h
    constructor
    · intro hfalse; simp [hasLoopF] at hfalse
    · rintro ⟨i, j, hfi, hcand, -⟩
      obtain ⟨h1, h2⟩ := candidate_length hcand
      omega
  | succ f ih =>
    intro first isRef v h
    rcases houter : outerScan v first with _ | ⟨i, j⟩
    · simp only [hasLoopF, houter]
      constructor
      · intro hfalse; exact absurd hfalse (by simp)
      · rintro ⟨i, j, hfi, hcand, -⟩
        exact absurd hcand (outerScan_none houter i j hfi)
    · obtain ⟨hfi, hcand⟩ := outerScan_sound houter
      obtain ⟨hij, hjlen⟩ := candidate_length hcand
      simp only [hasLoopF, houter]
      by_cases href : isRef (sliceN v (i + 1) j) = true
      · rw [if_pos href, ih (j + 1) isRef v (by omega)]
        constructor
        · rintro ⟨p, q, hp, hc, hr⟩
          exact ⟨p, q, by omega, hc, hr⟩
        · rintro ⟨p, q, hp, hc, hr⟩
          refine ⟨p, q, ?_, hc, hr⟩
          rcases Nat.lt_or_ge p i with hpi | hpi
          · exact absurd hc (outerScan_min houter p q hp hpi)
          · rcases Nat.eq_or_lt_of_le hpi with rfl | hpi'
            · have := candidate_end_unique hcand hc
              subst this
              rw [href] at hr
              exact absurd hr (by simp)
            · rcases Nat.lt_or_ge j p with hjp | hjp
              · omega
              · exact absurd hc (no_candidate_inside hcand hpi' hjp)
      · rw [if_neg href]
        simp only [true_iff]
        exact ⟨i, j, hfi, hcand, by simpa using href⟩

theorem hasAmbiguousAmpersand_iff (isRef : List Nat → Bool) (v : List Nat) :
    HasAmbiguousAmpersand isRef v = true ↔
      ∃ i j, candidate v i j ∧ isRef (sliceN v (i + 1) j) = false := by
  rw [HasAmbiguousAmpersand, hasLoopF_true_iff (v.length + 1) 0 isRef v (by omega)]
  constructor
  · rintro ⟨i, j, -, hc, hr⟩; exact ⟨i, j, hc, hr⟩
  · rintro ⟨i, j, hc, hr⟩; exact ⟨i, j, Nat.zero_le _, hc, hr⟩

/-! ## Lemmas: constructed inputs `&name;` -/

theorem getElem?_mem_any {n : List Nat} {m : Nat} (hm : m < n.length)
    (halnum : ∀ b ∈ n, isAlnumByte b = true) : (n[m]?).any isAlnumByte = true := by
  rw [List.getElem?_eq_getElem hm]
  simpa using halnum _ (List.getElem_mem hm)

theorem outerScan_construct {n : List Nat} (hne : n ≠ [])
    (halnum : ∀ b ∈ n, isAlnumByte b = true) :
    outerScan (ampByte :: (n ++ [semiByte])) 0 = some (0, n.length + 1) := by
  have hinner : innerScanL (n ++ [semiByte]) = some n.length := by
    refine innerScanL_complete ?_ ?_
    · rw [List.getElem?_append_right (by simp)]
      simp
    · intro m hm
      rw [List.getElem?_append_left (by omega)]
      exact getElem?_mem_any (by omega) halnum
  have hguard : ¬ (n ++ [semiByte]).head? = some semiByte := by
    rcases n with _ | ⟨b, t⟩
    · exact absurd rfl hne
    · simp only [List.cons_append, List.head?_cons, Option.some.injEq]
      exact isAlnumByte_ne_semi (halnum b (List.mem_cons_self _ _))
  unfold outerScan
  rw [List.drop_zero, outerScanL, if_pos rfl, if_neg hguard, hinner]
  simp

theorem sliceN_construct {n : List Nat} :
    sliceN (ampByte :: (n ++ [semiByte])) 1 (n.length + 1) = n := by
  unfold sliceN
  rw [List.take_succ_cons]
  have : (n ++ [semiByte]).take n.length = n := by
    rw [List.take_append_eq_append_take]
    simp
  rw [this]
  simp

theorem hasAmbiguousAmpersand_construct (isRef : List Nat → Bool) (n : List Nat)
    (hne : n ≠ []) (halnum : ∀ b ∈ n, isAlnumByte b = true) (href : isRef n = false) :
    HasAmbiguousAmpersand isRef (ampByte :: (n ++ [semiByte])) = true := by
  unfold HasAmbiguousAmpersand
  have hlen : (ampByte :: (n ++ [semiByte])).length = n.length + 2 := by simp
  rw [hlen, hasLoopF, outerScan_construct hne halnum]
  simp [sliceN_construct, href]

/-! ## Lemmas: skipping and resuming (claim C4) -/

theorem outerScan_no_skip_match {v : List Nat} {first i j : Nat}
    (h : outerScan v first = some (i, j)) : v[i + 1]? ≠ some semiByte := by
  obtain ⟨-, hcand⟩ := outerScan_sound h
  obtain ⟨h1, h2, h3, h4⟩ := hcand
  have := h4 (i + 1) (by omega) (by omega)
  intro hcon
  rw [hcon] at this
  simp only [Option.any_some] at this
  exact isAlnumByte_ne_semi this rfl

theorem outerScan_skip_step {v : List Nat} {i : Nat} (hamp : v[i]? = some ampByte)
    (hsemi : v[i + 1]? = some semiByte) : outerScan v i = outerScan v (i + 1) := by
  obtain ⟨hi, hvi⟩ := List.getElem?_eq_some_iff.mp hamp
  unfold outerScan
  rw [List.drop_eq_getElem_cons hi, hvi]
  rw [outerScanL, if_pos rfl, if_pos (by rw [List.head?_drop]; exact hsemi)]
  rcases ho : outerScanL (v.drop (i + 1)) with _ | ⟨a, b⟩
  · simp
  · simp only [Option.map_map, Option.map_some']
    have h1 : i + (a + 1) = i + 1 + a := by omega
    have h2 : i + (b + 1) = i + 1 + b := by omega
    rw [h1, h2]

theorem outerScan_fail_step {v : List Nat} {i : Nat} (hamp : v[i]? = some ampByte)
    (hnsemi : v[i + 1]? ≠ some semiByte)
    (hfail : innerScanL (v.drop (i + 1)) = none) :
    outerScan v i = outerScan v (i + 1) := by
  obtain ⟨hi, hvi⟩ := List.getElem?_eq_some_iff.mp hamp
  unfold outerScan
  rw [List.drop_eq_getElem_cons hi, hvi]
  rw [outerScanL, if_pos rfl, if_neg (by rw [List.head?_drop]; exact hnsemi), hfail]
  rcases ho : outerScanL (v.drop (i + 1)) with _ | ⟨a, b⟩
  · simp
  · simp only [Option.map_map, Option.map_some']
    have h1 : i + (a + 1) = i + 1 + a := by omega
    have h2 : i + (b + 1) = i + 1 + b := by omega
    rw [h1, h2]

/-! ## Lemmas: UTF-8 widths -/

theorem char_le_toNat {a b : Char} (h : a ≤ b) : a.val.toNat ≤ b.val.toNat := h

theorem utf8Size_eq_one {c : Char} (h : c.val.toNat ≤ 127) : c.utf8Size = 1 := by
  unfold Char.utf8Size
  dsimp only
  rw [if_pos ?_]
  exact h

theorem utf8Size_two_le {c : Char} (h : 160 ≤ c.val.toNat) : 2 ≤ c.utf8Size := by
  unfold Char.utf8Size
  dsimp only
  split_ifs with h1 h2 h3 <;> try omega
  have h127 : c.val.toNat ≤ 127 := h1
  omega

theorem nbsp_le_toNat {c : Char} (h : nbspChar ≤ c) : 160 ≤ c.val.toNat := by
  have h' := char_le_toNat h
  have h160 : nbspChar.val.toNat = 160 := rfl
  omega

/-! ## Lemmas: the CSS3 step function -/

theorem css3Step_backslash (s : CssSt) :
    css3Step s '\\' = some ⟨if s.i = 0 then '\\' else s.first, s.i + 1, true, true, 0⟩ := by
  unfold css3Step
  dsimp only
  rw [if_neg (fun h => absurd h.2.2 (by decide)),
      if_neg (fun h => by rcases h.2.2 with h' | h'
                          · exact absurd h' (by decide)
                          · exact absurd h'.2 (by decide)),
      if_neg (by decide : ¬ nbspChar ≤ '\\'),
      if_neg (by decide : ¬ ('\\' = '-' ∨ '\\' = '_')),
      if_neg (by decide : ¬ ('a' ≤ '\\' ∧ '\\' ≤ 'z')),
      if_neg (by decide : ¬ ('A' ≤ '\\' ∧ '\\' ≤ 'Z')),
      if_neg (by decide : ¬ ('0' ≤ '\\' ∧ '\\' ≤ '9')),
      if_pos rfl]
  rfl

theorem css3Step_hexCount_gt {s : CssSt} (c : Char) (h : s.hexCount > 6) :
    css3Step s c = css3Step ⟨s.first, s.i, s.wasSlash, false, s.hexCount⟩ c := by
  unfold css3Step
  dsimp only
  rw [if_pos h, if_pos h]

theorem css3Step_escape_ws {s : CssSt} {c : Char} (hi : 2 ≤ s.i)
    (hesc : s.inEscape = true) (hhex : s.hexCount ≤ 6)
    (hws : c = ' ' ∨ c = '\t' ∨ c = '\n' ∨ c = '\r' ∨ c = '\x0c') :
    css3Step s c = some ⟨s.first, s.i + 1, false, false, s.hexCount⟩ := by
  have hi0 : ¬ s.i = 0 := by omega
  have hi1 : ¬ s.i = 1 := by omega
  rcases hws with rfl | rfl | rfl | rfl | rfl <;>
  · unfold css3Step
    dsimp only
    rw [if_neg (fun h => hi0 h.1), if_neg (fun h => hi1 h.1),
        if_neg (by omega : ¬ s.hexCount > 6),
        if_neg (by decide), if_neg (by decide), if_neg (by decide),
        if_neg (by decide), if_neg (by decide), if_neg (by decide),
        if_pos ⟨hesc, by decide⟩, if_neg hi0]
    rfl

theorem css3Step_wasSlash_isSome {s : CssSt} (c : Char) (hi : 2 ≤ s.i)
    (hws : s.wasSlash = true) : (css3Step s c).isSome = true := by
  have hi0 : ¬ s.i = 0 := by omega
  have hi1 : ¬ s.i = 1 := by omega
  unfold css3Step
  dsimp only
  rw [if_neg (fun h => hi0 h.1), if_neg (fun h => hi1 h.1)]
  split_ifs <;> simp_all

theorem css3Step_none_loop_false {s : CssSt} {c : Char} (h : css3Step s c = none)
    (rest : List Char) : css3Loop s (c :: rest) = false := by
  rw [css3Loop, h]

theorem css3Step_plain {s : CssSt} {c : Char} (hi : 2 ≤ s.i) (hc : cssPlainChar c) :
    ∃ s', css3Step s c = some s' ∧ 2 ≤ s'.i := by
  have hi0 : ¬ s.i = 0 := by omega
  have hi1 : ¬ s.i = 1 := by omega
  unfold css3Step
  dsimp only
  rw [if_neg (fun h => hi0 h.1), if_neg (fun h => hi1 h.1)]
  split_ifs <;>
    first
      | exact ⟨_, rfl, by dsimp only; omega⟩
      | · exfalso
          rcases hc with h | h | h | h | h | h <;> simp_all

theorem css3Loop_all_plain : ∀ (cs : List Char) (s : CssSt),
    (∀ c ∈ cs, cssPlainChar c) → 2 ≤ s.i → css3Loop s cs = true := by
  intro cs
  induction cs with
  | nil => intro s _ _; rfl
  | cons c rest ih =>
    intro s hplain hi
    obtain ⟨s', hstep, hi'⟩ := css3Step_plain hi (hplain c (List.mem_cons_self _ _))
    rw [css3Loop, hstep]
    exact ih s' (fun x hx => hplain x (List.mem_cons_of_mem _ hx)) hi'

theorem css3Step_i0_plain {s : CssSt} {c : Char} (hi : s.i = 0)
    (hnd : ¬ ('0' ≤ c ∧ c ≤ '9')) (hc : cssPlainChar c) :
    ∃ s', css3Step s c = some s' ∧ s'.i = c.utf8Size ∧ s'.first = c := by
  unfold css3Step
  dsimp only
  rw [if_pos hi, if_neg (fun h => hnd h.2), if_neg (fun h => by have := h.1; omega)]
  split_ifs <;>
    first
      | exact ⟨_, rfl, by dsimp only; omega, rfl⟩
      | (exfalso; rcases hc with h | h | h | h | h | h <;> simp_all)

theorem css3Step_i1_plain {s : CssSt} {c : Char} (hi : s.i = 1)
    (hcond : ¬ (s.first = '-' ∧ (c = '-' ∨ ('0' ≤ c ∧ c ≤ '9'))))
    (hc : cssPlainChar c) : ∃ s', css3Step s c = some s' ∧ 2 ≤ s'.i := by
  have hpos := Char.utf8Size_pos c
  unfold css3Step
  dsimp only
  rw [if_neg (by omega : ¬ s.i = 0), if_neg (fun h => by have := h.1; omega),
      if_neg (fun h => hcond h.2)]
  split_ifs <;>
    first
      | exact ⟨_, rfl, by dsimp only; omega⟩
      | (exfalso; rcases hc with h | h | h | h | h | h <;> simp_all)

theorem isValidCss3Identifier_cons (c : Char) (cs : List Char) :
    IsValidCss3Identifier (c :: cs) = css3Loop css3Init (c :: cs) := rfl

theorem isValidCss3Identifier_digit_start (c₀ : Char) (rest : List Char)
    (h : '0' ≤ c₀ ∧ c₀ ≤ '9') : IsValidCss3Identifier (c₀ :: rest) = false := by
  have hstep : css3Step css3Init c₀ = none := by
    unfold css3Step
    dsimp only
    rw [if_pos ⟨rfl, h⟩]
  rw [isValidCss3Identifier_cons]
  simp only [css3Loop, hstep]

theorem isValidCss3Identifier_hyphen_start (c₁ : Char) (rest : List Char)
    (h : c₁ = '-' ∨ ('0' ≤ c₁ ∧ c₁ ≤ '9')) :
    IsValidCss3Identifier ('-' :: c₁ :: rest) = false := by
  have hstep1 : css3Step css3Init '-' = some ⟨'-', 1, false, false, 0⟩ := by decide
  have hstep2 : css3Step ⟨'-', 1, false, false, 0⟩ c₁ = none := by
    unfold css3Step
    dsimp only
    rw [if_neg (fun hcon => absurd hcon.1 (by decide)),
        if_neg (by decide : ¬ (1 : Nat) = 0), if_pos ⟨rfl, rfl, h⟩]
  rw [isValidCss3Identifier_cons]
  simp only [css3Loop, hstep1, hstep2]

theorem isValidCss3Identifier_plain (c₀ : Char) (rest : List Char)
    (hplain : ∀ c ∈ c₀ :: rest, cssPlainChar c)
    (hnd : ¬ ('0' ≤ c₀ ∧ c₀ ≤ '9'))
    (hsnd : c₀ = '-' → ∀ c₁, rest.head? = some c₁ →
      ¬ (c₁ = '-' ∨ ('0' ≤ c₁ ∧ c₁ ≤ '9'))) :
    IsValidCss3Identifier (c₀ :: rest) = true := by
  obtain ⟨s₁, hstep, hi₁, hfirst⟩ :=
    css3Step_i0_plain (rfl : css3Init.i = 0) hnd (hplain c₀ (List.mem_cons_self _ _))
  rw [isValidCss3Identifier_cons]
  simp only [css3Loop, hstep]
  by_cases hA : nbspChar ≤ c₀
  · refine css3Loop_all_plain rest s₁
      (fun c hc => hplain c (List.mem_cons_of_mem _ hc)) ?_
    rw [hi₁]
    exact utf8Size_two_le (nbsp_le_toNat hA)
  · have hsize : c₀.utf8Size = 1 := by
      apply utf8Size_eq_one
      rcases hplain c₀ (List.mem_cons_self _ _) with h | h | h | h | h | h
      · exact absurd h hA
      · subst h; decide
      · subst h; decide
      · have hz := char_le_toNat h.2
        have : ('z').val.toNat = 122 := rfl
        omega
      · have hz := char_le_toNat h.2
        have : ('Z').val.toNat = 90 := rfl
        omega
      · have hz := char_le_toNat h.2
        have : ('9').val.toNat = 57 := rfl
        omega
    rw [hsize] at hi₁
    cases rest with
    | nil => rfl
    | cons c₁ rest' =>
      have hcond : ¬ (s₁.first = '-' ∧ (c₁ = '-' ∨ ('0' ≤ c₁ ∧ c₁ ≤ '9'))) := by
        rintro ⟨hf, hbad⟩
        rw [hfirst] at hf
        exact hsnd hf c₁ rfl hbad
      obtain ⟨s₂, hstep2, hi₂⟩ :=
        css3Step_i1_plain hi₁ hcond (hplain c₁ (by simp))
      simp only [css3Loop, hstep2]
      exact css3Loop_all_plain rest' s₂ (fun c hc => hplain c (by simp [hc])) hi₂

theorem css3Loop_append_backslash : ∀ (cs : List Char) (s : CssSt),
    css3Loop s (cs ++ ['\\']) = css3Loop s cs := by
  intro cs
  induction cs with
  | nil =>
    intro s
    simp only [List.nil_append, css3Loop, css3Step_backslash]
  | cons c rest ih =>
    intro s
    rcases h : css3Step s c with _ | s'
    · simp only [List.cons_append, css3Loop, h]
    · simp only [List.cons_append, css3Loop, h]
      exact ih s'

/-! ## Lemmas: byte membership through the escapers -/

theorem mem_sliceN {v : List Nat} {a b x : Nat} (h : x ∈ sliceN v a b) : x ∈ v :=
  List.take_subset _ _ (List.drop_subset _ _ h)

theorem mem_escapeLoopF : ∀ (fuel src first : Nat) (isRef : List Nat → Bool)
    (v : List Nat) (x : Nat), x ∈ escapeLoopF isRef v src first fuel →
    x ∈ v ∨ x ∈ ampEntity := by
  intro fuel
  induction fuel with
  | zero =>
    intro src first isRef v x h
    exact Or.inl (List.drop_subset _ _ h)
  | succ f ih =>
    intro src first isRef v x h
    rcases houter : outerScan v first with _ | ⟨i, j⟩
    · simp only [escapeLoopF, houter] at h
      exact Or.inl (List.drop_subset _ _ h)
    · simp only [escapeLoopF, houter] at h
      by_cases href : isRef (sliceN v (i + 1) j) = true
      · rw [if_pos href] at h
        exact ih _ _ _ _ _ h
      · rw [if_neg href] at h
        rcases List.mem_append.mp h with h' | h'
        · rcases List.mem_append.mp h' with h'' | h''
          · exact Or.inl (mem_sliceN h'')
          · exact Or.inr h''
        · exact ih _ _ _ _ _ h'

theorem mem_replaceByte {v : List Nat} {old : Nat} {new : List Nat} {x : Nat}
    (h : x ∈ replaceByte v old new) : x ∈ new ∨ (x ∈ v ∧ x ≠ old) := by
  unfold replaceByte at h
  obtain ⟨a, ha, hx⟩ := List.mem_flatMap.mp h
  by_cases hao : a = old
  · rw [if_pos hao] at hx
    exact Or.inl hx
  · rw [if_neg hao] at hx
    simp only [List.mem_singleton] at hx
    subst hx
    exact Or.inr ⟨ha, hao⟩

theorem replaceByte_id : ∀ (v : List Nat) (old : Nat) (new : List Nat),
    old ∉ v → replaceByte v old new = v := by
  intro v old new
  induction v with
  | nil => intro _; rfl
  | cons c rest ih =>
    intro h
    show (c :: rest).flatMap _ = _
    rw [List.flatMap_cons]
    rw [if_neg (fun hc => h (by rw [← hc]; exact List.mem_cons_self _ _))]
    have : rest.flatMap (fun c => if c = old then new else [c]) = rest :=
      ih (fun hm => h (List.mem_cons_of_mem _ hm))
    rw [this]
    rfl

theorem idxOfByte_neg_one_iff {v : List Nat} {b : Nat} :
    idxOfByte v b = -1 ↔ b ∉ v := by
  unfold idxOfByte
  rcases h : v.findIdx? (fun c => c == b) with _ | i <;> dsimp only
  · constructor
    · intro _ hm
      have := (List.findIdx?_eq_none_iff.mp h) b hm
      simp at this
    · intro _; rfl
  · constructor
    · intro hcon
      exfalso
      omega
    · intro hnm
      exfalso
      have hnone : v.findIdx? (fun c => c == b) = none :=
        List.findIdx?_eq_none_iff.mpr (fun x hx => by
          simp only [beq_eq_false_iff_ne]
          exact fun hxb => hnm (hxb ▸ hx))
      rw [h] at hnone
      exact Option.noConfusion hnone

theorem escapeBuffer_some {isRef : List Nat → Bool} {v bb : List Nat}
    (h : escapeAmbiguousAmpersandsBuffer isRef v = some bb) :
    bb = escapeLoopF isRef v 0 0 (v.length + 1) := by
  unfold escapeAmbiguousAmpersandsBuffer at h
  by_cases hc : countAmbiguousF isRef v 0 (v.length + 1) = 0
  · rw [if_pos hc] at h
    exact absurd h (by simp)
  · rw [if_neg hc] at h
    simp only [Option.some.injEq] at h
    exact h.symm

/-! ## Lemmas: scanning across an appended `&`-headed suffix

These support the idempotence proof: the escaped output is built of spans of
the original text joined by `&amp;` blocks, and a block's leading `&` stops
any alphanumeric run coming from the left, so scans never cross the seam. -/

theorem innerScanL_append_amp : ∀ (x y : List Nat),
    innerScanL (x ++ ampByte :: y) = innerScanL x := by
  intro x
  induction x with
  | nil =>
    intro y
    rw [List.nil_append, innerScanL, innerScanL]
    rw [if_neg (by decide), if_neg (by decide)]
  | cons c rest ih =>
    intro y
    rw [List.cons_append, innerScanL, innerScanL]
    by_cases hc : c = semiByte
    · rw [if_pos hc, if_pos hc]
    · rw [if_neg hc, if_neg hc]
      by_cases ha : isAlnumByte c = true
      · rw [if_pos ha, if_pos ha, ih y]
      · rw [if_neg ha, if_neg ha]

theorem outerScanL_shift_helper (rest y : List Nat) (c : Nat) :
    Option.map (fun (p : Nat × Nat) => (p.1 + 1, p.2 + 1))
      (match outerScanL rest with
        | some p => some p
        | none => Option.map (fun (p : Nat × Nat) => (p.1 + rest.length, p.2 + rest.length))
            (outerScanL (ampByte :: y))) =
      match Option.map (fun (p : Nat × Nat) => (p.1 + 1, p.2 + 1)) (outerScanL rest) with
      | some p => some p
      | none => Option.map
          (fun (p : Nat × Nat) => (p.1 + (c :: rest).length, p.2 + (c :: rest).length))
          (outerScanL (ampByte :: y)) := by
  rcases outerScanL rest with _ | p
  · rcases outerScanL (ampByte :: y) with _ | q
    · rfl
    · simp only [Option.map_none', Option.map_some', Option.map_map, List.length_cons]
      have h1 : q.1 + rest.length + 1 = q.1 + (rest.length + 1) := by omega
      have h2 : q.2 + rest.length + 1 = q.2 + (rest.length + 1) := by omega
      rw [h1, h2]
  · rfl

theorem outerScanL_append_amp : ∀ (x y : List Nat),
    outerScanL (x ++ ampByte :: y) =
      match outerScanL x with
      | some p => some p
      | none =>
        (outerScanL (ampByte :: y)).map
          (fun (p : Nat × Nat) => (p.1 + x.length, p.2 + x.length)) := by
  intro x
  induction x with
  | nil =>
    intro y
    rw [List.nil_append]
    rw [show outerScanL ([] : List Nat) = none from rfl]
    rcases outerScanL (ampByte :: y) with _ | p
    · rfl
    · simp
  | cons c rest ih =>
    intro y
    rw [List.cons_append]
    by_cases hc : c = ampByte
    · rw [outerScanL, if_pos hc]
      conv_rhs => rw [outerScanL, if_pos hc]
      rcases hrest : rest with _ | ⟨d, rest'⟩
      · rw [List.nil_append]
        rw [if_neg (by
              rw [List.head?_cons]
              intro hcon
              exact absurd (Option.some.inj hcon) (by decide)),
            if_neg (by
              rw [List.head?_nil]
              exact fun hcon => Option.noConfusion hcon)]
        rw [show innerScanL (ampByte :: y) = none by
              rw [innerScanL, if_neg (by decide), if_neg (by decide)],
            show innerScanL ([] : List Nat) = none from rfl]
        rw [show outerScanL ([] : List Nat) = none from rfl]
        dsimp only
        rcases outerScanL (ampByte :: y) with _ | p
        · rfl
        · simp
      · rw [← hrest]
        have hne : rest ≠ [] := by rw [hrest]; exact List.cons_ne_nil _ _
        have hhead : (rest ++ ampByte :: y).head? = rest.head? := by
          rw [hrest, List.cons_append, List.head?_cons, List.head?_cons]
        rw [hhead]
        by_cases hd : rest.head? = some semiByte
        · rw [if_pos hd, if_pos hd, ih y]
          exact outerScanL_shift_helper rest y c
        · rw [if_neg hd, if_neg hd, innerScanL_append_amp rest y]
          rcases hi : innerScanL rest with _ | k
          · rw [ih y]
            exact outerScanL_shift_helper rest y c
          · rfl
    · rw [outerScanL, if_neg hc]
      conv_rhs => rw [outerScanL, if_neg hc]
      rw [ih y]
      try exact outerScanL_shift_helper rest y c

/-! ## Lemmas: slices of appends -/

theorem sliceN_append_left {x z : List Nat} {a b : Nat} (h : b ≤ x.length) :
    sliceN (x ++ z) a b = sliceN x a b := by
  unfold sliceN
  rw [List.take_append_eq_append_take]
  have : b - x.length = 0 := by omega
  rw [this, List.take_zero, List.append_nil]

theorem sliceN_append_right {x z : List Nat} {a b : Nat} :
    sliceN (x ++ z) (x.length + a) (x.length + b) = sliceN z a b := by
  unfold sliceN
  rw [List.take_append, List.drop_append_eq_append_drop]
  have h1 : x.length + a - x.length = a := by omega
  have h2 : List.drop (x.length + a) x = [] := List.drop_eq_nil_of_le (by omega)
  rw [h1, h2, List.nil_append]

theorem outerScan_shift {x z : List Nat} {f : Nat} (h : x.length ≤ f) :
    outerScan (x ++ z) f =
      (outerScan z (f - x.length)).map (fun p => (p.1 + x.length, p.2 + x.length)) := by
  unfold outerScan
  rw [List.drop_append_eq_append_drop, List.drop_eq_nil_of_le h, List.nil_append]
  rcases outerScanL (z.drop (f - x.length)) with _ | p
  · rfl
  · simp only [Option.map_some', Option.map_map]
    have h1 : f + p.1 = f - x.length + p.1 + x.length := by omega
    have h2 : f + p.2 = f - x.length + p.2 + x.length := by omega
    rw [h1, h2]

theorem scanAllF_shift : ∀ (fuel : Nat) (x z : List Nat) (f : Nat), x.length ≤ f →
    scanAllF (x ++ z) f fuel =
      (scanAllF z (f - x.length) fuel).map
        (fun m => (m.1, m.2.1 + x.length, m.2.2 + x.length)) := by
  intro fuel
  induction fuel with
  | zero => intro x z f _; rfl
  | succ fl ih =>
    intro x z f hf
    rcases ho : outerScan z (f - x.length) with _ | ⟨a, b⟩
    · have hL : outerScan (x ++ z) f = none := by
        rw [outerScan_shift hf, ho]; rfl
      simp only [scanAllF, hL, ho, List.map_nil]
    · have hL : outerScan (x ++ z) f = some (a + x.length, b + x.length) := by
        rw [outerScan_shift hf, ho]; rfl
      simp only [scanAllF, hL, ho, List.map_cons]
      have e1 : a + x.length + 1 = x.length + (a + 1) := by omega
      rw [e1]
      have e2 : b + x.length = x.length + b := by omega
      rw [e2]
      rw [sliceN_append_right]
      have e2' : x.length + b + 1 = b + x.length + 1 := by omega
      rw [e2', ih x z (b + x.length + 1) (by omega)]
      have e3 : b + x.length + 1 - x.length = b + 1 := by omega
      rw [e3]

theorem outerScan_append_amp {x y : List Nat} {f : Nat} (hf : f ≤ x.length) :
    outerScan (x ++ ampByte :: y) f =
      match outerScan x f with
      | some p => some p
      | none => (outerScan (ampByte :: y) 0).map
          (fun (p : Nat × Nat) => (p.1 + x.length, p.2 + x.length)) := by
  unfold outerScan
  rw [List.drop_append_eq_append_drop]
  have h0 : f - x.length = 0 := by omega
  rw [h0, List.drop_zero, outerScanL_append_amp (x.drop f) y]
  rcases ho : outerScanL (x.drop f) with _ | p <;>
    rcases ho2 : outerScanL (ampByte :: y) with _ | q
  · rfl
  · simp only [Option.map_none', Option.map_some', Option.map_map, List.length_drop]
    have h1 : f + (q.1 + (x.length - f)) = 0 + q.1 + x.length := by omega
    have h2 : f + (q.2 + (x.length - f)) = 0 + q.2 + x.length := by omega
    rw [h1, h2]
  · rfl
  · rfl

theorem scanAllF_append : ∀ (fuel : Nat) (x y : List Nat) (first : Nat),
    first ≤ x.length → (x ++ ampByte :: y).length < first + fuel →
    scanAllF (x ++ ampByte :: y) first fuel =
      scanAllF x first fuel ++
        (scanAllF (ampByte :: y) 0 fuel).map
          (fun m => (m.1, m.2.1 + x.length, m.2.2 + x.length)) := by
  intro fuel
  induction fuel with
  | zero =>
    intro x y first hf hF
    exfalso
    simp only [List.length_append, List.length_cons] at hF
    omega
  | succ fl ih =>
    intro x y first hf hF
    rcases hox : outerScan x first with _ | ⟨i, j⟩
    · rcases hoy : outerScan (ampByte :: y) 0 with _ | ⟨a, b⟩
      · have hL : outerScan (x ++ ampByte :: y) first = none := by
          rw [outerScan_append_amp hf, hox, hoy]
          rfl
        simp only [scanAllF, hL, hox, hoy, List.map_nil, List.append_nil]
      · have hL : outerScan (x ++ ampByte :: y) first = some (a + x.length, b + x.length) := by
          rw [outerScan_append_amp hf, hox, hoy]
          rfl
        simp only [scanAllF, hL, hox, hoy, List.map_cons, List.nil_append]
        have e1 : a + x.length + 1 = x.length + (a + 1) := by omega
        rw [e1]
        have e2 : b + x.length = x.length + b := by omega
        rw [e2, sliceN_append_right]
        rw [scanAllF_shift fl x (ampByte :: y) (x.length + b + 1) (by omega)]
        have e4 : x.length + b + 1 - x.length = b + 1 := by omega
        rw [e4]
    · obtain ⟨hfi, hcand⟩ := outerScan_sound hox
      obtain ⟨hij, hjlen⟩ := candidate_length hcand
      have hL : outerScan (x ++ ampByte :: y) first = some (i, j) := by
        rw [outerScan_append_amp hf, hox]
      have hflen : (x ++ ampByte :: y).length = x.length + 1 + y.length := by
        simp [List.length_append]
        omega
      rw [hflen] at hF
      rw [scanAllF_congr (fl + 1) fl 0 (ampByte :: y)
            (by simp only [List.length_cons]; omega)
            (by simp only [List.length_cons]; omega)]
      simp only [scanAllF, hL, hox, List.cons_append]
      rw [sliceN_append_left (Nat.le_of_lt hjlen)]
      rw [ih x y (j + 1) (by omega) (by rw [hflen]; omega)]

/-! ## Lemmas: candidates within slices -/

theorem sliceN_getElem? {v : List Nat} {s e k : Nat} :
    (sliceN v s e)[k]? = if s + k < e then v[s + k]? else none := by
  unfold sliceN
  rw [List.getElem?_drop, List.getElem?_take]

theorem sliceN_drop {v : List Nat} {src a b : Nat} :
    sliceN (v.drop src) a b = sliceN v (src + a) (src + b) := by
  unfold sliceN
  rw [List.take_drop, List.drop_drop]

theorem sliceN_sliceN {v : List Nat} {s e a b : Nat} (h : s + b ≤ e) :
    sliceN (sliceN v s e) a b = sliceN v (s + a) (s + b) := by
  unfold sliceN
  rw [List.take_drop, List.take_take]
  have hmin : (s + b) ⊓ e = s + b := min_eq_left h
  rw [hmin, List.drop_drop]

theorem candidate_sliceN {v : List Nat} {s e p q : Nat}
    (h : candidate (sliceN v s e) p q) :
    candidate v (s + p) (s + q) ∧ s + q < e := by
  obtain ⟨h1, h2, h3, h4⟩ := h
  rw [sliceN_getElem?] at h1 h3
  have hq : s + q < e := by
    by_contra hc
    rw [if_neg hc] at h3
    exact Option.noConfusion h3
  have hp : s + p < e := by
    by_contra hc
    rw [if_neg hc] at h1
    exact Option.noConfusion h1
  rw [if_pos hp] at h1
  rw [if_pos hq] at h3
  refine ⟨⟨h1, by omega, h3, ?_⟩, hq⟩
  intro k hk hpk
  have := h4 (k - s) (by omega) (by omega)
  rw [sliceN_getElem?, if_pos (by omega)] at this
  have hw : s + (k - s) = k := by omega
  rw [hw] at this
  exact this

/-! ## The idempotence simulation

Every match that a scan of the escaped output yields has a name that is in
the table: original valid references survive verbatim, each ambiguous `&` has
become `&amp;` (whose name `amp` is in the table), and no new candidates are
created across the seams. -/

theorem ampEntity_split : ampEntity = ampByte :: str2bytes "amp;" := by decide

theorem ampEntity_length : ampEntity.length = 5 := by decide

theorem ampTail_bytes : str2bytes "amp;" = [97, 109, 112, 59] := by decide

theorem ampTail_append (w : List Nat) :
    str2bytes "amp;" ++ w = 97 :: 109 :: 112 :: 59 :: w := by
  rw [ampTail_bytes]
  simp

theorem outerScan_ampEntity (w : List Nat) :
    outerScan (ampByte :: (str2bytes "amp;" ++ w)) 0 = some (0, 4) := by
  rw [ampTail_append]
  have hi1 : innerScanL (59 :: w) = some 0 := by
    rw [innerScanL, if_pos (show (59 : Nat) = semiByte from rfl)]
  have hi2 : innerScanL (112 :: 59 :: w) = some 1 := by
    rw [innerScanL, if_neg (show ¬ (112 : Nat) = semiByte by decide),
        if_pos (show isAlnumByte 112 = true by decide), hi1]
    rfl
  have hi3 : innerScanL (109 :: 112 :: 59 :: w) = some 2 := by
    rw [innerScanL, if_neg (show ¬ (109 : Nat) = semiByte by decide),
        if_pos (show isAlnumByte 109 = true by decide), hi2]
    rfl
  have hi4 : innerScanL (97 :: 109 :: 112 :: 59 :: w) = some 3 := by
    rw [innerScanL, if_neg (show ¬ (97 : Nat) = semiByte by decide),
        if_pos (show isAlnumByte 97 = true by decide), hi3]
    rfl
  unfold outerScan
  rw [List.drop_zero, outerScanL, if_pos rfl]
  rw [show (97 :: 109 :: 112 :: 59 :: w).head? = some 97 from rfl]
  rw [if_neg (fun hcon => absurd (Option.some.inj hcon) (by decide))]
  rw [hi4]
  simp

theorem sliceN_ampEntity (w : List Nat) :
    sliceN (ampByte :: (str2bytes "amp;" ++ w)) 1 4 = str2bytes "amp" := by
  rw [ampTail_append]
  rfl

theorem escapeLoopF_all_valid : ∀ (fuel : Nat) (isRef : List Nat → Bool) (v : List Nat)
    (src first G : Nat),
    isRef (str2bytes "amp") = true →
    src ≤ first → first ≤ v.length → v.length < first + fuel →
    (∀ p q, src ≤ p → p < first → candidate v p q → isRef (sliceN v (p + 1) q) = true) →
    (escapeLoopF isRef v src first fuel).length < G →
    ∀ m ∈ scanAllF (escapeLoopF isRef v src first fuel) 0 G, isRef m.1 = true := by
  intro fuel
  induction fuel with
  | zero =>
    intro isRef v src first G _ hsf hfv hF _ _ m _
    exfalso
    omega
  | succ fl ih =>
    intro isRef v src first G hAmp hsf hfv hF hInv hG m hm
    rcases houter : outerScan v first with _ | ⟨i, j⟩
    · simp only [escapeLoopF, houter] at hm
      obtain ⟨h0, hcand, hname⟩ := scanAllF_sound hm
      have hcv : candidate v (src + m.2.1) (src + m.2.2) := candidate_drop.mp hcand
      have hnm : m.1 = sliceN v (src + m.2.1 + 1) (src + m.2.2) := by
        rw [hname, sliceN_drop]
        congr 1
      rcases Nat.lt_or_ge (src + m.2.1) first with hlt | hge
      · rw [hnm]
        exact hInv _ _ (by omega) hlt hcv
      · exact absurd hcv (outerScan_none houter _ _ hge)
    · obtain ⟨hfi, hcand⟩ := outerScan_sound houter
      obtain ⟨hij, hjlen⟩ := candidate_length hcand
      by_cases href : isRef (sliceN v (i + 1) j) = true
      · simp only [escapeLoopF, houter, if_pos href] at hm hG
        refine ih isRef v src (j + 1) G hAmp (by omega) (by omega) (by omega) ?_ hG m hm
        intro p q hps hpf hcpq
        rcases Nat.lt_or_ge p first with hpf' | hpf'
        · exact hInv p q hps hpf' hcpq
        · rcases Nat.lt_or_ge p i with hpi | hpi
          · exact absurd hcpq (outerScan_min houter p q hpf' hpi)
          · rcases Nat.eq_or_lt_of_le hpi with heq | hpi'
            · subst heq
              rw [← candidate_end_unique hcand hcpq]
              exact href
            · exact absurd hcpq (no_candidate_inside hcand hpi' (by omega))
      · simp only [escapeLoopF, houter, if_neg href] at hm hG
        rw [List.append_assoc, ampEntity_split, List.cons_append] at hm
        have hGlen : (sliceN v src i).length + 5 +
            (escapeLoopF isRef v (i + 1) (j + 1) fl).length < G := by
          rw [List.length_append, List.length_append, ampEntity_length] at hG
          omega
        have happlen : (sliceN v src i ++ ampByte ::
            (str2bytes "amp;" ++ escapeLoopF isRef v (i + 1) (j + 1) fl)).length
              < 0 + G := by
          simp only [List.length_append, List.length_cons]
          rw [show (str2bytes "amp;").length = 4 from by decide]
          omega
        rw [scanAllF_append G (sliceN v src i)
              (str2bytes "amp;" ++ escapeLoopF isRef v (i + 1) (j + 1) fl) 0
              (Nat.zero_le _) happlen] at hm
        rcases List.mem_append.mp hm with hmc | hmy
        · -- match inside the copied span `v[src:i]`
          obtain ⟨-, hcand', hname'⟩ := scanAllF_sound hmc
          obtain ⟨hcv, hqi⟩ := candidate_sliceN hcand'
          have hpq : m.2.1 < m.2.2 := by
            obtain ⟨-, h2', -, -⟩ := hcand'
            omega
          have hnm : m.1 = sliceN v (src + m.2.1 + 1) (src + m.2.2) := by
            rw [hname', sliceN_sliceN (by omega)]
            congr 1
          rcases Nat.lt_or_ge (src + m.2.1) first with hlt | hge
          · rw [hnm]
            exact hInv _ _ (by omega) hlt hcv
          · exact absurd hcv (outerScan_min houter _ _ hge (by omega))
        · -- match inside the `&amp;` block or the recursively escaped rest
          obtain ⟨m₀, hm₀, hmeq⟩ := List.mem_map.mp hmy
          have hm1eq : m.1 = m₀.1 := by
            rw [← hmeq]
          obtain ⟨g, rfl⟩ : ∃ g, G = g + 1 := ⟨G - 1, by omega⟩
          simp only [scanAllF,
            outerScan_ampEntity (escapeLoopF isRef v (i + 1) (j + 1) fl)] at hm₀
          rcases List.mem_cons.mp hm₀ with rfl | hm₀'
          · rw [hm1eq]
            show isRef (sliceN (ampByte ::
              (str2bytes "amp;" ++ escapeLoopF isRef v (i + 1) (j + 1) fl)) (0 + 1) 4) = true
            rw [show (0 : Nat) + 1 = 1 from rfl, sliceN_ampEntity]
            exact hAmp
          · rw [show ampByte :: (str2bytes "amp;" ++
                  escapeLoopF isRef v (i + 1) (j + 1) fl) =
                (ampByte :: str2bytes "amp;") ++ escapeLoopF isRef v (i + 1) (j + 1) fl
                from by rw [List.cons_append]] at hm₀'
            rw [scanAllF_shift g (ampByte :: str2bytes "amp;")
                  (escapeLoopF isRef v (i + 1) (j + 1) fl) (4 + 1)
                  (by rw [show (ampByte :: str2bytes "amp;").length = 5 from by decide])] at hm₀'
            obtain ⟨m₁, hm₁, hm₁eq⟩ := List.mem_map.mp hm₀'
            have hmm : m₀.1 = m₁.1 := by
              rw [← hm₁eq]
            rw [hm1eq, hmm]
            have hwlen : 4 + 1 - (ampByte :: str2bytes "amp;").length = 0 := by
              rw [show (ampByte :: str2bytes "amp;").length = 5 from by decide]
            rw [hwlen] at hm₁
            refine ih isRef v (i + 1) (j + 1) g hAmp (by omega) (by omega) (by omega)
              ?_ (by omega) m₁ hm₁
            intro p q hps hpf hcpq
            exact absurd hcpq (no_candidate_inside hcand (by omega) (by omega))

/-! ## Lemmas: assembling the escapers -/

theorem escapeAmbiguousAmpersands_cases (isRef : List Nat → Bool) (v : List Nat) :
    EscapeAmbiguousAmpersands isRef v = v ∨
      EscapeAmbiguousAmpersands isRef v = escapeLoopF isRef v 0 0 (v.length + 1) := by
  unfold EscapeAmbiguousAmpersands
  by_cases h1 : v.length < 3
  · rw [if_pos h1]
    exact Or.inl rfl
  · rw [if_neg h1]
    rcases hf : v.findIdx? (fun c => c == ampByte) with _ | ampIdx
    · exact Or.inl rfl
    · dsimp only
      by_cases h2 : v.length - 2 ≤ ampIdx
      · rw [if_pos h2]
        exact Or.inl rfl
      · rw [if_neg h2]
        unfold escapeAmbiguousAmpersandsBuffer
        by_cases h3 : countAmbiguousF isRef v 0 (v.length + 1) = 0
        · rw [if_pos h3]
          exact Or.inl rfl
        · rw [if_neg h3]
          exact Or.inr rfl

theorem escapeAmbiguousAmpersands_of_all_valid {isRef : List Nat → Bool} {v : List Nat}
    (h : ∀ m ∈ scanAllF v 0 (v.length + 1), isRef m.1 = true) :
    EscapeAmbiguousAmpersands isRef v = v := by
  have hcount : countAmbiguousF isRef v 0 (v.length + 1) = 0 := by
    rw [countAmbiguousF_eq_countP, List.countP_eq_zero]
    intro m hm
    simp [h m hm]
  unfold EscapeAmbiguousAmpersands
  by_cases h1 : v.length < 3
  · rw [if_pos h1]
  · rw [if_neg h1]
    rcases hf : v.findIdx? (fun c => c == ampByte) with _ | ampIdx
    · rfl
    · dsimp only
      by_cases h2 : v.length - 2 ≤ ampIdx
      · rw [if_pos h2]
      · rw [if_neg h2]
        unfold escapeAmbiguousAmpersandsBuffer
        rw [if_pos hcount]

/-! ## Lemmas: `Next` as a function of the scan -/

theorem next_of_outerScan_some {v : List Nat} {li : Int} {i j : Nat}
    (h : outerScan v ((li + 1).toNat) = some (i, j)) :
    NamedReferenceScanner.Next ⟨v, li⟩
      = ((sliceN v (i + 1) j, (i : Int)), ⟨v, (j : Int)⟩) := by
  unfold NamedReferenceScanner.Next
  dsimp only
  rw [h]

theorem next_of_outerScan_none {v : List Nat} {li : Int}
    (h : outerScan v ((li + 1).toNat) = none) :
    NamedReferenceScanner.Next ⟨v, li⟩ = (([], -1), ⟨v, (v.length : Int)⟩) := by
  unfold NamedReferenceScanner.Next
  dsimp only
  rw [h]

theorem next_exhausted_absorbing (v : List Nat) :
    NamedReferenceScanner.Next ⟨v, (v.length : Int)⟩
      = (([], -1), ⟨v, (v.length : Int)⟩) := by
  refine next_of_outerScan_none (outerScan_exhausted ?_)
  omega

/-! ## Lemmas: the composite attribute escaper -/

theorem idxOfByte_ge_neg_one (v : List Nat) (b : Nat) : -1 ≤ idxOfByte v b := by
  unfold idxOfByte
  rcases v.findIdx? (fun c => c == b) with _ | i <;> dsimp only <;> omega

theorem escapeAttr_id {isRef : List Nat → Bool} {v : List Nat}
    (hamp : ampByte ∉ v) (hquot : quotByte ∉ v) :
    EscapeAttributeValueDoubleQuoted isRef v = v := by
  unfold EscapeAttributeValueDoubleQuoted
  dsimp only
  rw [if_pos ⟨idxOfByte_neg_one_iff.mpr hamp, idxOfByte_neg_one_iff.mpr hquot⟩]

theorem escapeAttr_no_prefilter {isRef : List Nat → Bool} {v : List Nat}
    (h : ¬ (¬ idxOfByte v ampByte = -1 ∧ idxOfByte v ampByte < idxOfByte v semiByte)) :
    EscapeAttributeValueDoubleQuoted isRef v = replaceByte v quotByte quotEntity := by
  unfold EscapeAttributeValueDoubleQuoted
  dsimp only
  by_cases h1 : idxOfByte v ampByte = -1 ∧ idxOfByte v quotByte = -1
  · rw [if_pos h1, replaceByte_id v quotByte quotEntity (idxOfByte_neg_one_iff.mp h1.2)]
  · rw [if_neg h1, if_neg h]
    by_cases h3 : ¬ idxOfByte v quotByte = -1
    · rw [if_pos h3]
    · rw [if_neg h3]
      rw [not_not] at h3
      rw [replaceByte_id v quotByte quotEntity (idxOfByte_neg_one_iff.mp h3)]

theorem quot_not_mem_escapeAttr (isRef : List Nat → Bool) (v : List Nat) :
    quotByte ∉ EscapeAttributeValueDoubleQuoted isRef v := by
  unfold EscapeAttributeValueDoubleQuoted
  dsimp only
  by_cases h1 : idxOfByte v ampByte = -1 ∧ idxOfByte v quotByte = -1
  · rw [if_pos h1]
    exact idxOfByte_neg_one_iff.mp h1.2
  · rw [if_neg h1]
    have hrep : ∀ w : List Nat, quotByte ∉ replaceByte w quotByte quotEntity := by
      intro w hmem
      rcases mem_replaceByte hmem with hq | ⟨-, hne⟩
      · exact absurd hq (by decide)
      · exact hne rfl
    by_cases h2 : ¬ idxOfByte v ampByte = -1 ∧ idxOfByte v ampByte < idxOfByte v semiByte
    · rw [if_pos h2]
      rcases hbuf : escapeAmbiguousAmpersandsBuffer isRef v with _ | bb <;> dsimp only
      · by_cases h3 : ¬ idxOfByte v quotByte = -1
        · rw [if_pos h3]
          exact hrep v
        · rw [if_neg h3]
          rw [not_not] at h3
          exact idxOfByte_neg_one_iff.mp h3
      · by_cases h3 : ¬ idxOfByte v quotByte = -1
        · rw [if_pos h3]
          exact hrep bb
        · rw [if_neg h3]
          rw [not_not] at h3
          intro hmem
          have hbb := escapeBuffer_some hbuf
          rw [hbb] at hmem
          rcases mem_escapeLoopF _ _ _ _ _ _ hmem with hv | hamp
          · exact idxOfByte_neg_one_iff.mp h3 hv
          · exact absurd hamp (by decide)
    · rw [if_neg h2]
      dsimp only
      by_cases h3 : ¬ idxOfByte v quotByte = -1
      · rw [if_pos h3]
        exact hrep v
      · rw [if_neg h3]
        rw [not_not] at h3
        exact idxOfByte_neg_one_iff.mp h3

/-! ## The claims -/

/-- C1: for every table predicate and every input, `EscapeAmbiguousAmpersands`
returns the text in which, for each ambiguous ampersand the scan yields, only
the leading `&` byte is replaced by the five-byte entity `&amp;` while the
matched name, its trailing `;`, valid references and all other bytes are
copied verbatim (stated as equality with the positional spec-level
replacement `specReplaceAmbiguous` at the ambiguous indices); consequently
the output length equals the input length plus 4 bytes per ambiguous
ampersand. -/
theorem escapeAmbiguousAmpersands_correct : ∀ (isRef : List Nat → Bool) (v : List Nat),
    EscapeAmbiguousAmpersands isRef v = specReplaceAmbiguous v (ambigIndices isRef v) ∧
    (EscapeAmbiguousAmpersands isRef v).length
      = v.length + 4 * (ambigIndices isRef v).length := by
  intro isRef v
  have hb : ∀ x ∈ ambigIndices isRef v, 0 ≤ x ∧ x < v.length := ambigIndices_bounds
  have hp : List.Pairwise (· < ·) (ambigIndices isRef v) := ambigIndices_pairwise
  constructor
  · rw [escapeAmbiguousAmpersands_eq_spliceFrom,
        spliceFrom_eq_specReplaceGo (ambigIndices isRef v) 0 v hb hp]
    unfold specReplaceAmbiguous
    rw [List.drop_zero]
  · rw [escapeAmbiguousAmpersands_eq_spliceFrom,
        spliceFrom_length (ambigIndices isRef v) 0 v hb hp]
    omega

/-- C2: for every table predicate, `HasAmbiguousAmpersand` returns `true` iff
the text contains a candidate of the shape `&` + one-or-more ASCII
alphanumerics + `;` whose name is not in the table (and `false` when no such
candidate exists, including when there are no candidates at all); in
particular, for every non-empty alphanumeric name outside the table the
constructed input `&name;` is detected. -/
theorem hasAmbiguousAmpersand_correct : ∀ (isRef : List Nat → Bool) (v : List Nat),
    (HasAmbiguousAmpersand isRef v = true ↔
      ∃ i j, candidate v i j ∧ isRef (sliceN v (i + 1) j) = false) ∧
    (∀ n : List Nat, n ≠ [] → (∀ b ∈ n, isAlnumByte b = true) → isRef n = false →
      HasAmbiguousAmpersand isRef (ampByte :: (n ++ [semiByte])) = true) := by
  intro isRef v
  exact ⟨hasAmbiguousAmpersand_iff isRef v,
    fun n hne halnum href => hasAmbiguousAmpersand_construct isRef n hne halnum href⟩

theorem hasAmbiguousAmpersand_correct_witness :
    HasAmbiguousAmpersand IsCharacterReferenceName
      (ampByte :: (str2bytes "dan" ++ [semiByte])) = true :=
  (hasAmbiguousAmpersand_correct IsCharacterReferenceName []).2 (str2bytes "dan")
    (by decide) (by decide) (by decide)

/-- C3: `NamedReferenceScanner.Next` returns the name (excluding `&` and `;`)
and ampersand index of the next candidate strictly after the cursor's last
stop — the earliest candidate at or after `LastIndex + 1` — and sets
`LastIndex` to the index of the terminating `;`; with no remaining candidate
it returns `("", -1)` and sets `LastIndex` to the input length, so every
subsequent call also returns `("", -1)`; `Reset` sets `LastIndex` to `-1`;
and on `"&but; &this;"` successive calls from a fresh cursor yield
`("but", 0)`, then `("this", 6)`, then exhaustion, and after `Reset` the
sequence recurs. -/
theorem namedReferenceScanner_next_correct :
    (∀ s : NamedReferenceScanner, s.Reset = ⟨s.Value, -1⟩)
    ∧ (∀ (v : List Nat) (li : Int) (i j : Nat),
        outerScan v ((li + 1).toNat) = some (i, j) →
          NamedReferenceScanner.Next ⟨v, li⟩
              = ((sliceN v (i + 1) j, (i : Int)), ⟨v, (j : Int)⟩)
            ∧ candidate v i j ∧ (li + 1).toNat ≤ i ∧ v[j]? = some semiByte
            ∧ ∀ p q, (li + 1).toNat ≤ p → p < i → ¬ candidate v p q)
    ∧ (∀ (v : List Nat) (li : Int),
        outerScan v ((li + 1).toNat) = none →
          NamedReferenceScanner.Next ⟨v, li⟩ = (([], -1), ⟨v, (v.length : Int)⟩))
    ∧ (∀ v : List Nat, NamedReferenceScanner.Next ⟨v, (v.length : Int)⟩
        = (([], -1), ⟨v, (v.length : Int)⟩))
    ∧ (NamedReferenceScanner.Next ⟨str2bytes "&but; &this;", -1⟩
        = ((str2bytes "but", 0), ⟨str2bytes "&but; &this;", 4⟩)
      ∧ NamedReferenceScanner.Next ⟨str2bytes "&but; &this;", 4⟩
        = ((str2bytes "this", 6), ⟨str2bytes "&but; &this;", 11⟩)
      ∧ NamedReferenceScanner.Next ⟨str2bytes "&but; &this;", 11⟩
        = (([], -1), ⟨str2bytes "&but; &this;", 12⟩)
      ∧ NamedReferenceScanner.Next ⟨str2bytes "&but; &this;", 12⟩
        = (([], -1), ⟨str2bytes "&but; &this;", 12⟩)
      ∧ (NamedReferenceScanner.Reset ⟨str2bytes "&but; &this;", 12⟩).LastIndex = -1
      ∧ NamedReferenceScanner.Next
          (NamedReferenceScanner.Reset ⟨str2bytes "&but; &this;", 12⟩)
        = ((str2bytes "but", 0), ⟨str2bytes "&but; &this;", 4⟩)) := by
  refine ⟨fun s => rfl, ?_, ?_, ?_, ?_⟩
  · intro v li i j h
    obtain ⟨hfi, hcand⟩ := outerScan_sound h
    exact ⟨next_of_outerScan_some h, hcand, hfi, hcand.2.2.1, outerScan_min h⟩
  · intro v li h
    exact next_of_outerScan_none h
  · exact next_exhausted_absorbing
  · exact ⟨by decide, by decide, by decide, by decide, by decide, by decide⟩

theorem namedReferenceScanner_next_correct_witness :
    NamedReferenceScanner.Next ⟨str2bytes "&but; &this;", -1⟩
        = ((sliceN (str2bytes "&but; &this;") (0 + 1) 4, (0 : Int)),
            ⟨str2bytes "&but; &this;", (4 : Int)⟩)
      ∧ candidate (str2bytes "&but; &this;") 0 4 :=
  let h := namedReferenceScanner_next_correct.2.1 (str2bytes "&but; &this;")
    (-1) 0 4 (by decide)
  ⟨h.1, h.2.1⟩

/-- C4: during `Next`, an `&` immediately followed by `;` is never returned
as a match, and both for the skipped `&;` pair and for a failed candidate the
outer search resumes exactly one byte past the `&`, so bytes inside a failed
candidate can start a later successful match; on `"&this &is; also;"` the
match `("is", 6)` is still found. -/
theorem namedReferenceScanner_skip_resume_correct :
    (∀ (v : List Nat) (first i j : Nat),
        outerScan v first = some (i, j) → v[i + 1]? ≠ some semiByte)
    ∧ (∀ (v : List Nat) (i : Nat), v[i]? = some ampByte →
        v[i + 1]? = some semiByte → outerScan v i = outerScan v (i + 1))
    ∧ (∀ (v : List Nat) (i : Nat), v[i]? = some ampByte →
        v[i + 1]? ≠ some semiByte → innerScanL (v.drop (i + 1)) = none →
        outerScan v i = outerScan v (i + 1))
    ∧ NamedReferenceScanner.Next ⟨str2bytes "&this &is; also;", -1⟩
        = ((str2bytes "is", 6), ⟨str2bytes "&this &is; also;", 9⟩) :=
  ⟨fun _ _ _ _ h => outerScan_no_skip_match h,
    fun _ _ h1 h2 => outerScan_skip_step h1 h2,
    fun _ _ h1 h2 h3 => outerScan_fail_step h1 h2 h3,
    by decide⟩

theorem namedReferenceScanner_skip_resume_correct_witness :
    (str2bytes "&but;")[0 + 1]? ≠ some semiByte
    ∧ outerScan (str2bytes "&;ab") 0 = outerScan (str2bytes "&;ab") 1
    ∧ outerScan (str2bytes "&!ab") 0 = outerScan (str2bytes "&!ab") 1 :=
  ⟨namedReferenceScanner_skip_resume_correct.1 (str2bytes "&but;") 0 0 4 (by decide),
    namedReferenceScanner_skip_resume_correct.2.1 (str2bytes "&;ab") 0
      (by decide) (by decide),
    namedReferenceScanner_skip_resume_correct.2.2.1 (str2bytes "&!ab") 0
      (by decide) (by decide) (by decide)⟩

/-- C5: escaping is idempotent for any table that contains the name `amp`
(as the real reference-name table does): escaping the escaped output is a
no-op, because previously escaped ampersands scan as the valid reference
`&amp;` and are never re-flagged. -/
theorem escapeAmbiguousAmpersands_idempotent :
    ∀ (isRef : List Nat → Bool) (v : List Nat),
      isRef (str2bytes "amp") = true →
      EscapeAmbiguousAmpersands isRef (EscapeAmbiguousAmpersands isRef v)
        = EscapeAmbiguousAmpersands isRef v := by
  intro isRef v hAmp
  rcases escapeAmbiguousAmpersands_cases isRef v with heq | heq
  · rw [heq, heq]
  · rw [heq]
    apply escapeAmbiguousAmpersands_of_all_valid
    intro m hm
    exact escapeLoopF_all_valid (v.length + 1) isRef v 0 0
      ((escapeLoopF isRef v 0 0 (v.length + 1)).length + 1) hAmp (le_refl 0)
      (Nat.zero_le _) (by omega) (fun p q hp hpf _ => absurd hpf (by omega))
      (by omega) m hm

theorem escapeAmbiguousAmpersands_idempotent_witness :
    EscapeAmbiguousAmpersands IsCharacterReferenceName
        (EscapeAmbiguousAmpersands IsCharacterReferenceName (str2bytes "&dan;"))
      = EscapeAmbiguousAmpersands IsCharacterReferenceName (str2bytes "&dan;") :=
  escapeAmbiguousAmpersands_idempotent IsCharacterReferenceName
    (str2bytes "&dan;") (by decide)

/-- C6: `IsValidCss3Identifier` rejects the empty string, every input whose
first code point is an ASCII digit, and every input starting with `-`
followed by `-` or a digit; every other non-empty input consisting only of
code points that are `≥ U+00A0`, `-`, `_`, or ASCII alphanumeric is accepted;
`"abc123DEF"` is valid while `"--lua"`, `"-1a"` and `"2"` are invalid. -/
theorem isValidCss3Identifier_start_rules :
    IsValidCss3Identifier [] = false
    ∧ (∀ (c₀ : Char) (rest : List Char), '0' ≤ c₀ ∧ c₀ ≤ '9' →
        IsValidCss3Identifier (c₀ :: rest) = false)
    ∧ (∀ (c₁ : Char) (rest : List Char), c₁ = '-' ∨ ('0' ≤ c₁ ∧ c₁ ≤ '9') →
        IsValidCss3Identifier ('-' :: c₁ :: rest) = false)
    ∧ (∀ (c₀ : Char) (rest : List Char), (∀ c ∈ c₀ :: rest, cssPlainChar c) →
        ¬ ('0' ≤ c₀ ∧ c₀ ≤ '9') →
        (c₀ = '-' → ∀ c₁, rest.head? = some c₁ →
          ¬ (c₁ = '-' ∨ ('0' ≤ c₁ ∧ c₁ ≤ '9'))) →
        IsValidCss3Identifier (c₀ :: rest) = true)
    ∧ IsValidCss3Identifier "abc123DEF".data = true
    ∧ IsValidCss3Identifier "--lua".data = false
    ∧ IsValidCss3Identifier "-1a".data = false
    ∧ IsValidCss3Identifier "2".data = false :=
  ⟨rfl, isValidCss3Identifier_digit_start, isValidCss3Identifier_hyphen_start,
    isValidCss3Identifier_plain, by decide, by decide, by decide, by decide⟩

theorem isValidCss3Identifier_start_rules_witness :
    IsValidCss3Identifier ('2' :: []) = false
    ∧ IsValidCss3Identifier ('-' :: '-' :: 'l' :: []) = false
    ∧ IsValidCss3Identifier ('a' :: '-' :: 'b' :: []) = true :=
  ⟨isValidCss3Identifier_start_rules.2.1 '2' [] (by decide),
    isValidCss3Identifier_start_rules.2.2.1 '-' ('l' :: []) (Or.inl rfl),
    isValidCss3Identifier_start_rules.2.2.2.1 'a' ('-' :: 'b' :: [])
      (by decide) (by decide) (fun h => absurd h (by decide))⟩

/-- C7: in the validator's escape handling, once more than 6 hex digits have
been consumed the escape flag is dropped before the current code point is
evaluated; a whitespace code point met in escape mode (with at most 6 hex
digits consumed) is accepted as the escape terminator and clears both flags;
any code point directly after a lone backslash is accepted; a rejected code
point makes the whole loop return `false` regardless of the remaining input;
and `"\32"` and `"te\st"` are valid while `"a b"` is invalid. -/
theorem isValidCss3Identifier_escape_handling :
    (∀ (s : CssSt) (c : Char), s.hexCount > 6 →
        css3Step s c = css3Step ⟨s.first, s.i, s.wasSlash, false, s.hexCount⟩ c)
    ∧ (∀ (s : CssSt) (c : Char), 2 ≤ s.i → s.inEscape = true → s.hexCount ≤ 6 →
        (c = ' ' ∨ c = '\t' ∨ c = '\n' ∨ c = '\r' ∨ c = '\x0c') →
        css3Step s c = some ⟨s.first, s.i + 1, false, false, s.hexCount⟩)
    ∧ (∀ (s : CssSt) (c : Char), 2 ≤ s.i → s.wasSlash = true →
        (css3Step s c).isSome = true)
    ∧ (∀ (s : CssSt) (c : Char) (rest : List Char), css3Step s c = none →
        css3Loop s (c :: rest) = false)
    ∧ IsValidCss3Identifier "\\32".data = true
    ∧ IsValidCss3Identifier "te\\st".data = true
    ∧ IsValidCss3Identifier "a b".data = false :=
  ⟨fun _ c h => css3Step_hexCount_gt c h,
    fun _ _ hi hesc hhex hws => css3Step_escape_ws hi hesc hhex hws,
    fun _ c hi hws => css3Step_wasSlash_isSome c hi hws,
    fun _ _ rest h => css3Step_none_loop_false h rest,
    by decide, by decide, by decide⟩

theorem isValidCss3Identifier_escape_handling_witness :
    css3Step ⟨'a', 2, false, true, 7⟩ 'g'
        = css3Step ⟨'a', 2, false, false, 7⟩ 'g'
    ∧ css3Step ⟨'a', 2, false, true, 3⟩ ' ' = some ⟨'a', 3, false, false, 3⟩
    ∧ (css3Step ⟨'a', 2, true, true, 0⟩ '!').isSome = true
    ∧ css3Loop ⟨'a', 2, false, false, 0⟩ (' ' :: 'x' :: []) = false :=
  ⟨isValidCss3Identifier_escape_handling.1 ⟨'a', 2, false, true, 7⟩ 'g' (by decide),
    isValidCss3Identifier_escape_handling.2.1 ⟨'a', 2, false, true, 3⟩ ' '
      (by decide) rfl (by decide) (Or.inl rfl),
    isValidCss3Identifier_escape_handling.2.2.1 ⟨'a', 2, true, true, 0⟩ '!'
      (by decide) rfl,
    isValidCss3Identifier_escape_handling.2.2.2.1 ⟨'a', 2, false, false, 0⟩ ' '
      ('x' :: []) (by decide)⟩

/-- C8: ambiguous-ampersand escaping is attempted only when the index of the
first `&` is strictly smaller than the index of the first `;` of the whole
input; whenever that pre-filter fails — in particular when the first `;`
precedes the first `&`, or there is no `;` at all — the output is only the
quote substitution applied to the input, so ambiguous ampersands stay
unescaped even when `HasAmbiguousAmpersand` reports one, as on `"; &dan;"`. -/
theorem escapeAttributeValueDoubleQuoted_prefilter :
    (∀ (isRef : List Nat → Bool) (v : List Nat),
        ¬ (¬ idxOfByte v ampByte = -1 ∧ idxOfByte v ampByte < idxOfByte v semiByte) →
        EscapeAttributeValueDoubleQuoted isRef v = replaceByte v quotByte quotEntity)
    ∧ (∀ (isRef : List Nat → Bool) (v : List Nat),
        idxOfByte v semiByte = -1 ∨ idxOfByte v semiByte < idxOfByte v ampByte →
        EscapeAttributeValueDoubleQuoted isRef v = replaceByte v quotByte quotEntity)
    ∧ HasAmbiguousAmpersand IsCharacterReferenceName (str2bytes "; &dan;") = true
    ∧ EscapeAttributeValueDoubleQuoted IsCharacterReferenceName (str2bytes "; &dan;")
        = str2bytes "; &dan;" := by
  refine ⟨fun isRef v h => escapeAttr_no_prefilter h, ?_, by decide, by decide⟩
  intro isRef v h
  apply escapeAttr_no_prefilter
  rintro ⟨hne, hlt⟩
  rcases h with h | h
  · have := idxOfByte_ge_neg_one v ampByte
    omega
  · omega

theorem escapeAttributeValueDoubleQuoted_prefilter_witness :
    EscapeAttributeValueDoubleQuoted IsCharacterReferenceName (str2bytes ";&x;\"")
      = replaceByte (str2bytes ";&x;\"") quotByte quotEntity :=
  escapeAttributeValueDoubleQuoted_prefilter.2.1 IsCharacterReferenceName
    (str2bytes ";&x;\"") (Or.inr (by decide))

/-- C9: an input containing neither `&` nor `"` is returned unchanged; every
literal double quote is replaced by the entity `&#34;` after any
ambiguous-ampersand escaping, so the output never contains a literal `"`;
concretely `"&dan;\"xxx\""` becomes `"&amp;dan;&#34;xxx&#34;"`. -/
theorem escapeAttributeValueDoubleQuoted_quotes :
    (∀ (isRef : List Nat → Bool) (v : List Nat), ampByte ∉ v → quotByte ∉ v →
        EscapeAttributeValueDoubleQuoted isRef v = v)
    ∧ (∀ (isRef : List Nat → Bool) (v : List Nat),
        quotByte ∉ EscapeAttributeValueDoubleQuoted isRef v)
    ∧ EscapeAttributeValueDoubleQuoted IsCharacterReferenceName
        (str2bytes "&dan;\"xxx\"") = str2bytes "&amp;dan;&#34;xxx&#34;" :=
  ⟨fun _ _ h1 h2 => escapeAttr_id h1 h2,
    fun isRef v => quot_not_mem_escapeAttr isRef v, by decide⟩

theorem escapeAttributeValueDoubleQuoted_quotes_witness :
    EscapeAttributeValueDoubleQuoted IsCharacterReferenceName (str2bytes "plain text")
      = str2bytes "plain text" :=
  escapeAttributeValueDoubleQuoted_quotes.1 IsCharacterReferenceName
    (str2bytes "plain text") (by decide) (by decide)

/-- C10: a trailing lone backslash never causes rejection: appending `\` to
any input whose prefix the lexer loop accepts yields a valid identifier even
though the escape is unterminated; in particular `"\"` and `"a\"` are
valid. -/
theorem isValidCss3Identifier_trailing_backslash :
    (∀ cs : List Char, css3Loop css3Init cs = true →
        IsValidCss3Identifier (cs ++ ['\\']) = true)
    ∧ IsValidCss3Identifier "\\".data = true
    ∧ IsValidCss3Identifier "a\\".data = true := by
  refine ⟨?_, by decide, by decide⟩
  intro cs h
  have hval : IsValidCss3Identifier (cs ++ ['\\'])
      = css3Loop css3Init (cs ++ ['\\']) := by
    rcases cs with _ | ⟨c, cs'⟩
    · rfl
    · rfl
  rw [hval, css3Loop_append_backslash cs css3Init, h]

theorem isValidCss3Identifier_trailing_backslash_witness :
    IsValidCss3Identifier ('a' :: ['\\']) = true :=
  isValidCss3Identifier_trailing_backslash.1 ('a' :: []) (by decide)

end Htmlutil
